import Mathlib

/-! adept: command line options, help text rendering and the redirect-following fetch

A shallow embedding of `src/src/CmdLineOption.cpp`, `src/include/CmdLineOption.h`,
`src/src/adept.cpp` and `src/include/adept.h`.

* `std::string` is a `List Char`, `std::vector<std::string>` and `std::list<std::string>`
  are `List (List Char)`.
* A list iterator is a position in the list: the elements in front of it and the elements
  from it onwards.
* A thrown exception is a constructor of the result type of the function that throws.
* An `int` is an integer. Where the source stores a length or a count in an `int`
  (`currentCol`, `size`, the value of `std::atoi`), the model keeps the number as it is: texts
  and vectors are taken to be shorter than `2 ^ 31`.
* A loop that need not end takes a fuel argument, the number of rounds it may make, and
  gives `Outcome.noFuel` when the rounds are used up.
-/

namespace Adept

/-! ## CmdLineOption: data model -/

/-- The members of `class CmdLineOption` (`CmdLineOption.h`, lines 30-36). -/
structure CmdLineOption where
  shortLabel : List Char
  longLabel : List Char
  nArgs : Int
  args : List (List Char)
  argLabels : List (List Char)
  helpText : List Char
  set : Bool
deriving Repr, DecidableEq

/-- The constructor of `CmdLineOption.h`, lines 14-16: `args` starts as the defaults and
`set` starts false. -/
def CmdLineOption.new (shortLabel longLabel : List Char) (nArgs : Int) (helpText : List Char)
    (defaults : List (List Char)) (argLabels : List (List Char)) : CmdLineOption :=
  { shortLabel := shortLabel, longLabel := longLabel, nArgs := nArgs, args := defaults,
    argLabels := argLabels, helpText := helpText, set := false }

/-- The accessor `isSet` of `CmdLineOption.h`, line 19. -/
def CmdLineOption.isSet (opt : CmdLineOption) : Bool := opt.set

/-- The accessor `getArgs` of `CmdLineOption.h`, line 20. -/
def CmdLineOption.getArgs (opt : CmdLineOption) : List (List Char) := opt.args

/-! ## CmdLineOption::parse -/

/-- How a call of `CmdLineOption::parse` ends: it returns `set`, or it throws
`std::invalid_argument("Unexpected end of arguments list.")`. Both carry the option and the
argument list as the call left them. -/
inductive ParseResult where
  | returned (ret : Bool) (opt : CmdLineOption) (argsList : List (List Char))
  | invalidArgument (opt : CmdLineOption) (argsList : List (List Char))
deriving Repr, DecidableEq

/-- The `for` loop of `CmdLineOption::parse` (`CmdLineOption.cpp`, lines 19-37).
`before` holds the elements in front of the iterator `it`, `after` the elements from `it`
onwards, so `after = []` is `it == argsList.end()`.

On a match the label is erased, `set` becomes true, `args` is cleared and the next `nArgs`
elements are moved into `args` and erased; when the list ends first, the elements pushed so
far stay in `args` and the exception leaves the function. After the inner loop `it` is on the
element behind the last erased one, and the `++it` of the `for` statement steps over that
element without comparing it with the labels.

When `it` is already `end()` at that `++it`, the increment is outside what the language
defines. The model follows the node-based `std::list` of libstdc++ and libc++, whose
sentinel node links back to the first node: the iterator wraps to `begin()` and the scan
goes over the remaining elements again (for an empty list `++end()` is `end()` itself). -/
def parseLoop (opt : CmdLineOption) (before after : List (List Char)) : ParseResult :=
  match after with
  | [] => .returned opt.set opt before
  | tok :: rest =>
    if tok = opt.shortLabel ∨ tok = opt.longLabel then
      if rest.length < opt.nArgs.toNat then
        .invalidArgument { opt with set := true, args := rest } before
      else
        let opt1 := { opt with set := true, args := rest.take opt.nArgs.toNat }
        match _h : rest.drop opt.nArgs.toNat with
        | [] => parseLoop opt1 [] before
        | skipped :: rest1 => parseLoop opt1 (before ++ [skipped]) rest1
    else
      parseLoop opt (before ++ [tok]) rest
termination_by (before.length + after.length, after.length)
decreasing_by
  · simp_wf
    simp only [Prod.lex_def]; omega
  · simp_wf
    have hlen := congrArg List.length _h
    simp at hlen
    simp only [Prod.lex_def]; omega
  · simp_wf
    simp only [Prod.lex_def]; omega

/-- `CmdLineOption::parse` (`CmdLineOption.cpp`, lines 17-39): the loop starts at
`argsList.begin()`. -/
def parse (opt : CmdLineOption) (argsList : List (List Char)) : ParseResult :=
  parseLoop opt [] argsList

/-- A token is one of the two labels of the option (the test of line 22). -/
def isLabel (opt : CmdLineOption) (tok : List Char) : Prop :=
  tok = opt.shortLabel ∨ tok = opt.longLabel

instance (opt : CmdLineOption) (tok : List Char) : Decidable (isLabel opt tok) := by
  unfold isLabel; infer_instance

/-! ## The options of the driver (`adept::adept`, `adept.cpp`, lines 51-57) -/

def optHelp : CmdLineOption :=
  CmdLineOption.new "-h".toList "--help".toList 0 "Displays this help menu.".toList [] []

def optOutDir : CmdLineOption :=
  CmdLineOption.new "-d".toList "--out-dir".toList 1
    "Specifies the directory to which the fetched libraries will be written.".toList
    [".".toList] ["path".toList]

def optFetchDeps : CmdLineOption :=
  CmdLineOption.new "-D".toList "--deps".toList 1
    "If this option is specified, all subdependencies will also be fetched.".toList
    [".".toList] ["path".toList]

def optRepo : CmdLineOption :=
  CmdLineOption.new "-r".toList "--repo".toList 1
    "Specifies the url of the repository to download the libraries from. Current default: %0".toList
    ["maven.google.com".toList] ["url".toList]

def optForce : CmdLineOption :=
  CmdLineOption.new "-f".toList "--force".toList 0
    "Forces the action to complete, overwriting existing files even if they are up-to-date.".toList
    [] []

def optIndex : CmdLineOption :=
  CmdLineOption.new "-i".toList "--index".toList 1
    "Specifies an alternate master index file to search for in the repository. Current default: %0".toList
    ["master-index.xml".toList] ["index".toList]

/-! ## Results of code that may loop forever or read outside a vector -/

/-- How a run of a function with an unbounded loop ends in the model: with a value, with the
fuel used up before the loop ended, or with a read of `replacements[i]` / `args[i]` at
`i == size()`, an element that does not exist (the language gives that read no meaning). -/
inductive Outcome (α : Type) where
  | done (a : α)
  | noFuel
  | outOfRange
deriving Repr, DecidableEq

/-- Sequencing of two computations. -/
def Outcome.bind {α β : Type} (x : Outcome α) (f : α → Outcome β) : Outcome β :=
  match x with
  | .done a => f a
  | .noFuel => .noFuel
  | .outOfRange => .outOfRange

/-! ## Characters and integer conversions -/

/-- `std::isspace` in the "C" locale: space, `\t`, `\n`, `\v`, `\f`, `\r`. -/
def isspace (c : Char) : Bool :=
  c = ' ' || c = '\t' || c = '\n' || c = '\x0b' || c = '\x0c' || c = '\r'

/-- `std::isdigit`: the ten decimal digits. -/
def isdigit (c : Char) : Bool :=
  '0' ≤ c && c ≤ '9'

/-- Conversion of an `int` to `size_t` (64 bit), as happens where the source compares an
`int` expression with a `length()` or passes one as a count. -/
def toSizeT (x : Int) : Nat := (x % 2 ^ 64).toNat

/-- The placeholder character `CmdLineOption::helpTextPlaceholder` (line 8). -/
def helpTextPlaceholder : Char := '%'

/-! ## CmdLineOption::findWords -/

/-- The loop `while (std::isspace(*startIt))` of lines 163-169, entered with `startIt` on an
element: `none` when `++startIt` reaches the end (the function returns there), otherwise the
input from the first character that is no whitespace. -/
def skipSpace : List Char → Option (List Char)
  | [] => none
  | c :: cs => if isspace c then skipSpace cs else some (c :: cs)

/-- The `do ... while (!std::isspace(*endIt))` loop of lines 172-179, given the input behind
`startIt`: the further characters of the word and the input from `endIt` onwards (empty when
`endIt` reached the end). -/
def scanWord : List Char → List Char × List Char
  | [] => ([], [])
  | c :: cs => if isspace c then ([], c :: cs) else ((scanWord cs).1.cons c, (scanWord cs).2)

/-- The outer loop of `findWords` (lines 160-187); `input` is the text from `startIt`
onwards. Every round takes at least one character, so `input.length` rounds are enough and
`findWords` passes that much fuel. -/
def findWordsLoop : Nat → List Char → List (List Char) → Nat → Option (Nat × List (List Char))
  | _, [], words, nWords => some (nWords, words)
  | 0, _ :: _, _, _ => none
  | fuel + 1, c :: cs, words, nWords =>
    match skipSpace (c :: cs) with
    | none => some (nWords, words)
    | some [] => some (nWords, words)
    | some (d :: ds) =>
      match (scanWord ds).2 with
      | [] => some (nWords + 1, words ++ [d :: (scanWord ds).1])
      | e :: es => findWordsLoop fuel (e :: es) (words ++ [d :: (scanWord ds).1]) (nWords + 1)

/-- `CmdLineOption::findWords` (lines 154-188): the number of words found and the list with
the words appended. -/
def findWords (input : List Char) (words : List (List Char)) : Option (Nat × List (List Char)) :=
  findWordsLoop input.length input words 0

/-! ## CmdLineOption::replacePlaceholders -/

/-- The loop of line 203, `for (int size = replacements.size(); size > 0; size /= 10, nDigits++)`.
The fuel bounds the number of rounds; `size` rounds are always enough. -/
def nDigitsLoop : Nat → Nat → Nat → Nat
  | 0, _, nDigits => nDigits
  | fuel + 1, size, nDigits => if size > 0 then nDigitsLoop fuel (size / 10) (nDigits + 1) else nDigits

/-- The value of `nDigits` after line 203. -/
def maxDigits (replacements : List (List Char)) : Nat :=
  nDigitsLoop replacements.length replacements.length 0

/-- `word.find(helpTextPlaceholder)` (line 208): the index of the first `%`, `none` for
`std::string::npos`. -/
def findPlaceholder : List Char → Option Nat
  | [] => none
  | c :: cs => if c = helpTextPlaceholder then some 0 else (findPlaceholder cs).map (· + 1)

/-- The loop of lines 220-236 over the characters behind the `%`: at most `nDigits` digits are
copied into `digits`, stopping at the end of the word or at a character that is no digit. -/
def readDigits : Nat → List Char → List Char
  | 0, _ => []
  | _ + 1, [] => []
  | n + 1, c :: cs => if isdigit c then c :: readDigits n cs else []

/-- `std::atoi` on a string of decimal digits (line 246), most significant digit first. -/
def atoi (digits : List Char) : Nat :=
  digits.foldl (fun acc c => acc * 10 + (c.toNat - '0'.toNat)) 0

/-- What one round of the loop of `replacePlaceholders` does with the word under the
iterator: the iterator moves on, the word is changed and looked at again, or
`replacements[replacementIndex]` is read at `replacementIndex == replacements.size()`. -/
inductive WordStep where
  | next
  | again (word : List Char)
  | pastEnd
deriving Repr, DecidableEq

/-- The body of the loop of `replacePlaceholders` (lines 207-255) for one word. A word without
`%` is left (`++it`); otherwise the first `%` and the digits read behind it are replaced,
by nothing (no digit read, or `replacementIndex > replacements.size()`) or by
`replacements[replacementIndex]`. `replacementIndex == replacements.size()` passes the test
of line 247 and reads an element that does not exist. -/
def replaceBody (replacements : List (List Char)) (nDigits : Nat) (word : List Char) :
    WordStep :=
  match findPlaceholder word with
  | none => .next
  | some index =>
    let digits := readDigits nDigits (word.drop (index + 1))
    let n := digits.length
    if n = 0 then
      .again (word.take index ++ word.drop (index + 1 + n))
    else if atoi digits > replacements.length then
      .again (word.take index ++ word.drop (index + 1 + n))
    else
      match replacements.get? (atoi digits) with
      | none => .pastEnd
      | some replacement => .again (word.take index ++ replacement ++ word.drop (index + 1 + n))

/-- The loop of `replacePlaceholders` (lines 205-256). `processed` holds the words in front of
the iterator, the second list the words from the iterator onwards. After a replacement the
iterator stays (`continue` without `++it`, and the fall through at the end of the body
likewise), so the same word is searched again from its start. -/
def replaceLoop (replacements : List (List Char)) (nDigits : Nat) :
    Nat → List (List Char) → List (List Char) → Outcome (List (List Char))
  | _, processed, [] => .done processed
  | 0, _, _ :: _ => .noFuel
  | fuel + 1, processed, word :: rest =>
    match replaceBody replacements nDigits word with
    | .next => replaceLoop replacements nDigits fuel (processed ++ [word]) rest
    | .again word1 => replaceLoop replacements nDigits fuel processed (word1 :: rest)
    | .pastEnd => .outOfRange

/-- `CmdLineOption::replacePlaceholders` (lines 195-259): nothing is done when there are no
replacements or no words. -/
def replacePlaceholders (fuel : Nat) (words : List (List Char)) (replacements : List (List Char)) :
    Outcome (List (List Char)) :=
  if replacements.isEmpty || words.isEmpty then .done words
  else replaceLoop replacements (maxDigits replacements) fuel [] words

/-- `CmdLineOption::preprocessHelpText` (lines 136-142): the words of `helpText` with the
placeholders replaced from `args`. -/
def preprocessHelpText (fuel : Nat) (opt : CmdLineOption) : Outcome (List (List Char)) :=
  match findWords opt.helpText [] with
  | none => .noFuel
  | some (_, words) => replacePlaceholders fuel words opt.args

/-! ## CmdLineOption::getFormattedHelpText -/

/-- `CmdLineOption::indent` (lines 264-270): a line break and `indentAmount` spaces are
appended; the new column is `indentAmount`. -/
def indent (formatted : List Char) (indentAmount : Int) : List Char × Int :=
  (formatted ++ ['\n'] ++ List.replicate (toSizeT indentAmount) ' ', indentAmount)

/-- The text built by lines 68-91: `startIndent` spaces, the labels, ` <label>` for every
argument label and one more space. -/
def helpHeader (opt : CmdLineOption) (startIndent : Int) : List Char :=
  let formatted := List.replicate (toSizeT startIndent) ' '
  let formatted :=
    if opt.shortLabel.length ≠ 0 then
      if opt.longLabel.length ≠ 0 then formatted ++ opt.shortLabel ++ (", ".toList ++ opt.longLabel)
      else formatted ++ opt.shortLabel
    else if opt.longLabel.length ≠ 0 then formatted ++ opt.longLabel
    else formatted
  let formatted := opt.argLabels.foldl (fun f label => f ++ (" <".toList ++ label ++ ">".toList)) formatted
  formatted ++ [' ']

/-- Lines 96-99: the header is filled with spaces up to column
`startIndent + helpTextIndent` when it is shorter. -/
def padHeader (formatted : List Char) (startIndent helpTextIndent : Int) : List Char :=
  if formatted.length < toSizeT (startIndent + helpTextIndent) then
    formatted ++ List.replicate (toSizeT (startIndent + helpTextIndent) - formatted.length) ' '
  else formatted

/-- The loop `while (!words.empty())` of lines 101-125; `word` is a reference to the front
of `words`, so the erase of line 111 shortens the word inside the list. -/
def wrapLoop (startIndent helpTextIndent wrapLength : Int) :
    Nat → List (List Char) → List Char → Int → Outcome (List Char)
  | _, [], formatted, _ => .done formatted
  | 0, _ :: _, _, _ => .noFuel
  | fuel + 1, word :: rest, formatted, currentCol =>
    if currentCol ≥ wrapLength then
      wrapLoop startIndent helpTextIndent wrapLength fuel (word :: rest)
        (indent formatted (startIndent + helpTextIndent)).1
        (indent formatted (startIndent + helpTextIndent)).2
    else if word.length > toSizeT (wrapLength - startIndent - helpTextIndent) then
      wrapLoop startIndent helpTextIndent wrapLength fuel
        (word.drop (toSizeT (wrapLength - currentCol)) :: rest)
        (indent (formatted ++ word.take (toSizeT (wrapLength - currentCol)))
          (startIndent + helpTextIndent)).1
        (indent (formatted ++ word.take (toSizeT (wrapLength - currentCol)))
          (startIndent + helpTextIndent)).2
    else if word.length < toSizeT (wrapLength - currentCol) then
      wrapLoop startIndent helpTextIndent wrapLength fuel rest
        (formatted ++ word ++ [' ']) (currentCol + word.length + 1)
    else
      wrapLoop startIndent helpTextIndent wrapLength fuel (word :: rest)
        (indent formatted (startIndent + helpTextIndent)).1
        (indent formatted (startIndent + helpTextIndent)).2

/-- `CmdLineOption::getFormattedHelpText` (lines 66-128). The fuel bounds the rounds of the
loops of `replacePlaceholders` and of the word wrap, each on its own. -/
def getFormattedHelpText (fuel : Nat) (opt : CmdLineOption)
    (startIndent helpTextIndent wrapLength : Int) : Outcome (List Char) :=
  (preprocessHelpText fuel opt).bind fun words =>
    let formatted := padHeader (helpHeader opt startIndent) startIndent helpTextIndent
    wrapLoop startIndent helpTextIndent wrapLength fuel words formatted formatted.length

/-- The loop of lines 101-125 once more, as `wrapLoop`, with a record kept beside it that
the source does not keep: whenever the branch of lines 109-113 cuts a word that is longer than
the usable width, the text written so far, up to and including the piece of the word, is
added to `splits`. The text and the column go as in `wrapLoop`. -/
def wrapLoopLog (startIndent helpTextIndent wrapLength : Int) :
    Nat → List (List Char) → List Char → Int → List (List Char) →
      Outcome (List Char × List (List Char))
  | _, [], formatted, _, splits => .done (formatted, splits)
  | 0, _ :: _, _, _, _ => .noFuel
  | fuel + 1, word :: rest, formatted, currentCol, splits =>
    if currentCol ≥ wrapLength then
      wrapLoopLog startIndent helpTextIndent wrapLength fuel (word :: rest)
        (indent formatted (startIndent + helpTextIndent)).1
        (indent formatted (startIndent + helpTextIndent)).2 splits
    else if word.length > toSizeT (wrapLength - startIndent - helpTextIndent) then
      wrapLoopLog startIndent helpTextIndent wrapLength fuel
        (word.drop (toSizeT (wrapLength - currentCol)) :: rest)
        (indent (formatted ++ word.take (toSizeT (wrapLength - currentCol)))
          (startIndent + helpTextIndent)).1
        (indent (formatted ++ word.take (toSizeT (wrapLength - currentCol)))
          (startIndent + helpTextIndent)).2
        (splits ++ [formatted ++ word.take (toSizeT (wrapLength - currentCol))])
    else if word.length < toSizeT (wrapLength - currentCol) then
      wrapLoopLog startIndent helpTextIndent wrapLength fuel rest
        (formatted ++ word ++ [' ']) (currentCol + word.length + 1) splits
    else
      wrapLoopLog startIndent helpTextIndent wrapLength fuel (word :: rest)
        (indent formatted (startIndent + helpTextIndent)).1
        (indent formatted (startIndent + helpTextIndent)).2 splits

/-- `getFormattedHelpText` with the record of `wrapLoopLog`: the text returned and, for every
cut of a long word, the text as it stood when the line of the cut was closed. -/
def getFormattedHelpTextLog (fuel : Nat) (opt : CmdLineOption)
    (startIndent helpTextIndent wrapLength : Int) : Outcome (List Char × List (List Char)) :=
  (preprocessHelpText fuel opt).bind fun words =>
    let formatted := padHeader (helpHeader opt startIndent) startIndent helpTextIndent
    wrapLoopLog startIndent helpTextIndent wrapLength fuel words formatted formatted.length []

/-! ## CmdLineOption::operator[] -/

/-- How `CmdLineOption::operator[]` ends: with the element, with `std::out_of_range` thrown,
or with the read of `args[args.size()]`, which the test `i > args.size()` lets through. -/
inductive Subscript where
  | value (s : List Char)
  | threwOutOfRange
  | pastEnd
deriving Repr, DecidableEq

/-- `CmdLineOption::operator[]` (lines 46-54). -/
def valueAt (opt : CmdLineOption) (i : Nat) : Subscript :=
  if i > opt.args.length then .threwOutOfRange
  else
    match opt.args.get? i with
    | some s => .value s
    | none => .pastEnd

/-! ## The regular expressions of `adept.h` (lines 72-78)

`std::regex_search` is library code. The three patterns of the program are sequences of
literals and greedy repetitions of a character class; the matcher below gives them the
ECMAScript meaning: the leftmost start position that matches wins, and at every repetition
the longest run is tried first and shortened while the rest of the pattern fails. -/

/-- One element of a pattern: a literal, or a class repeated between `min` and `max` times
(`max = none` for no upper bound). -/
inductive RegexItem where
  | lit (s : List Char)
  | rep (cls : Char → Bool) (min : Nat) (max : Option Nat)

/-- Length of the longest run of characters of the class at the front of the text. -/
def runLength (cls : Char → Bool) : List Char → Nat
  | [] => 0
  | c :: cs => if cls c then runLength cls cs + 1 else 0

/-- Try the repetition with `k`, `k - 1`, ..., `min` characters; `cont` matches the rest of
the pattern. The result lists the text matched by every element. -/
def tryLengths (cont : List Char → Option (List (List Char))) (s : List Char) (min : Nat) :
    Nat → Option (List (List Char))
  | 0 => if min = 0 then (cont s).map (fun pieces => [] :: pieces) else none
  | k + 1 =>
    if k + 1 < min then none
    else
      match cont (s.drop (k + 1)) with
      | some pieces => some (s.take (k + 1) :: pieces)
      | none => tryLengths cont s min k

/-- Match the pattern at the front of the text. -/
def matchItems : List RegexItem → List Char → Option (List (List Char))
  | [], _ => some []
  | .lit p :: items, s =>
    if s.take p.length = p then (matchItems items (s.drop p.length)).map (fun pieces => p :: pieces)
    else none
  | .rep cls min max :: items, s =>
    tryLengths (matchItems items) s min
      (match max with
       | none => runLength cls s
       | some m => Nat.min m (runLength cls s))

/-- `std::regex_search`: the match at the leftmost position where the pattern matches. -/
def regexSearch (items : List RegexItem) : List Char → Option (List (List Char))
  | [] => matchItems items []
  | c :: cs =>
    match matchItems items (c :: cs) with
    | some pieces => some pieces
    | none => regexSearch items cs

/-- `httpCodeRegex`, `HTTP\/(\d+\.*\d*)\s*(\d{3})`; piece 5 is group 2. -/
def httpCodeRegex : List RegexItem :=
  [.lit "HTTP/".toList, .rep isdigit 1 none, .rep (fun c => c = '.') 0 none, .rep isdigit 0 none,
   .rep isspace 0 none, .rep isdigit 3 (some 3)]

/-- `httpLocationRegex`, `Location:\s*(\S*)`; piece 2 is group 1. -/
def httpLocationRegex : List RegexItem :=
  [.lit "Location:".toList, .rep isspace 0 none, .rep (fun c => !isspace c) 0 none]

/-- `packageNameVersionRegex`, `(\S*):(\S*)`; pieces 0 and 2 are groups 1 and 2. -/
def packageNameVersionRegex : List RegexItem :=
  [.rep (fun c => !isspace c) 0 none, .lit ":".toList, .rep (fun c => !isspace c) 0 none]

/-- A buffer read as a C string: the characters in front of the first `\0`. -/
def cString (buffer : List Char) : List Char :=
  buffer.takeWhile (fun c => c ≠ '\x00')

/-! ## The application object -/

/-- What one call of `curl_easy_perform` does in a scripted run: the `CURLcode` it returns
(`0` is `CURLE_OK`) and the chunks it hands to the write callback for the header block and
for the body. -/
structure Response where
  status : Nat
  header : List (List Char)
  body : List (List Char)
deriving Repr, DecidableEq

/-- What the program writes to `std::cout`: text, or the document that tinyxml2 parsed from
the bytes given (`index.Print()`, library code). -/
inductive Output where
  | text (s : List Char)
  | xml (buffer : List Char)
deriving Repr, DecidableEq

/-- The members of `class adept` that the code under study reads and writes (`adept.h`),
with the requests made through the cURL handle and the output so far. -/
structure adept where
  optHelp : CmdLineOption
  optOutDir : CmdLineOption
  optFetchDeps : CmdLineOption
  optRepo : CmdLineOption
  optForce : CmdLineOption
  optIndex : CmdLineOption
  packages : List (List Char × List Char)
  fileBuffer : List Char
  headerBuffer : List Char
  requests : List (List Char)
  out : List Output
deriving Repr, DecidableEq

/-- The constructor `adept::adept` (`adept.cpp`, lines 51-72). -/
def adept.new : adept :=
  { optHelp := Adept.optHelp, optOutDir := Adept.optOutDir, optFetchDeps := Adept.optFetchDeps,
    optRepo := Adept.optRepo, optForce := Adept.optForce, optIndex := Adept.optIndex,
    packages := [], fileBuffer := [],
    headerBuffer := [], requests := [], out := [] }

/-- The vector `opts` of `adept.h`, line 53. -/
def adept.opts (app : adept) : List CmdLineOption :=
  [app.optHelp, app.optOutDir, app.optFetchDeps, app.optRepo, app.optForce, app.optIndex]

/-- `ReturnCode` of `adept.h`, lines 29-34. -/
def ReturnCode.ok : Int := 0

def ReturnCode.invalidPackage : Int := -1

def ReturnCode.packageNotFound : Int := -2

def Strings.packageFormat : List Char :=
  "Expected format: <package path>:<package version>, ie com.google.android.material:1.4.0".toList

def Strings.invalidPackageName : List Char := "Invalid package name: ".toList

def Strings.helpIntro : List Char :=
  ("\nadept\n\nA simple command line utility for managing Android dependencies.\n\n" ++
   "Usage: adept [options] <packages>, where each package is formatted as <path>:<version>.\n" ++
   "For example, to fetch com.google.android.material version 1.4.0, use: adept com.google.android.material:1.4.0\n\n" ++
   "Available options:").toList

def Strings.msgFetch : List Char := "Attempting to fetch file ".toList

def Strings.msgFetchFail : List Char := "Failed to fetch file ".toList

def Strings.msgRedirect : List Char := "Redirecting to ".toList

def Strings.msgSuccess : List Char := "Success!".toList

def Strings.msgHttpCode : List Char := "Server returned code ".toList

/-- `std::endl`. -/
def endl : List Char := ['\n']

/-- Writing text to `std::cout`. -/
def adept.print (app : adept) (s : List Char) : adept :=
  { app with out := app.out ++ [.text s] }

/-! ## The fetch -/

/-- `adept::curlWriteData` (lines 90-107): the bytes are appended to the buffer. -/
def curlWriteData (dst : List Char) (buffer : List Char) : List Char :=
  dst ++ buffer

/-- A buffer after a transfer that started with the buffer cleared (line 117 or 118): the
chunks appended by the write callback in the order of arrival, and the `\0` pushed by
line 124 or 125. -/
def received (chunks : List (List Char)) : List Char :=
  chunks.foldl curlWriteData [] ++ ['\x00']

/-- `CURLE_COULDNT_CONNECT`, the code a scripted run gives a request for which the script has
no response left. -/
def CURLE_COULDNT_CONNECT : Nat := 7

/-- `adept::curlPerform` (lines 113-128): both buffers are cleared, the transfer appends what
it receives through the write callback, and a `\0` is pushed on both buffers. `response` is
what the transfer does (`none`: the script has run out, nothing is received). -/
def curlPerform (app : adept) (url : List Char) (response : Option Response) : Nat × adept :=
  match response with
  | none =>
    (CURLE_COULDNT_CONNECT,
      { app with requests := app.requests ++ [url], fileBuffer := received [],
                 headerBuffer := received [] })
  | some r =>
    (r.status,
      { app with requests := app.requests ++ [url], fileBuffer := received r.body,
                 headerBuffer := received r.header })

/-- `adept::getHttpCode` (lines 185-195), as a function of the member `headerBuffer` it
reads; `std::stoi` on the three digits of group 2. -/
def getHttpCode (headerBuffer : List Char) : Nat :=
  match regexSearch httpCodeRegex (cString headerBuffer) with
  | none => 0
  | some pieces => atoi (pieces.getD 5 [])

/-- `adept::getRedirectUrl` (lines 202-210), as a function of the member `headerBuffer` it
reads. -/
def getRedirectUrl (headerBuffer : List Char) : List Char :=
  match regexSearch httpLocationRegex (cString headerBuffer) with
  | none => []
  | some pieces => pieces.getD 2 []

/-- The loop `while (true)` of `adept::fetchFile` (lines 140-175), run against a script of
responses: every round takes the next response of the script. -/
def fetchLoop : List Response → adept → List Char → Bool × adept
  | [], app, url =>
    (false, (curlPerform app url none).2.print (Strings.msgFetchFail ++ url ++ endl))
  | r :: script, app, url =>
    let app1 := (curlPerform app url (some r)).2
    if (curlPerform app url (some r)).1 ≠ 0 then
      (false, app1.print (Strings.msgFetchFail ++ url ++ endl))
    else if getHttpCode app1.headerBuffer = 200 then
      (true, app1.print Strings.msgSuccess)
    else if getHttpCode app1.headerBuffer ≥ 300 ∧ getHttpCode app1.headerBuffer < 400 then
      if getRedirectUrl app1.headerBuffer = [] then (false, app1)
      else fetchLoop script (app1.print (Strings.msgRedirect ++ getRedirectUrl app1.headerBuffer ++ endl))
        (getRedirectUrl app1.headerBuffer)
    else
      (false, app1.print (Strings.msgFetchFail ++ url ++ ". ".toList ++ Strings.msgHttpCode ++
        Nat.toDigits 10 (getHttpCode app1.headerBuffer) ++ endl))

/-- `adept::fetchFile` (lines 136-176). -/
def fetchFile (script : List Response) (app : adept) (url : List Char) : Bool × adept :=
  fetchLoop script (app.print (Strings.msgFetch ++ url ++ endl)) url

/-! ## adept::help and adept::run -/

/-- The loop of `adept::help` (lines 276-279) over the options. -/
def helpLoop (fuel : Nat) : List CmdLineOption → adept → Outcome adept
  | [], app => .done app
  | opt :: rest, app =>
    (getFormattedHelpText fuel opt 0 25 100).bind fun text =>
      helpLoop fuel rest (app.print (text ++ endl))

/-- `adept::help` (lines 273-281). -/
def help (fuel : Nat) (app : adept) : Outcome adept :=
  helpLoop fuel app.opts (app.print (Strings.helpIntro ++ endl))

/-- The state of the loop of lines 236-239: the options parsed so far have returned, or one of
them has thrown `std::invalid_argument`, which nothing in the program catches. -/
inductive ParseAll where
  | ok (app : adept) (argsList : List (List Char))
  | threw (app : adept) (argsList : List (List Char))
deriving Repr, DecidableEq

/-- One round of the loop of lines 236-239, for the option read by `get` and written back
by `put`. -/
def parseOne (get : adept → CmdLineOption) (put : adept → CmdLineOption → adept) :
    ParseAll → ParseAll
  | .ok app argsList =>
    match parse (get app) argsList with
    | .returned _ opt rest => .ok (put app opt) rest
    | .invalidArgument opt rest => .threw (put app opt) rest
  | .threw app argsList => .threw app argsList

/-- The loop of lines 236-239 over `opts`, in the order of `adept.h`, line 53. -/
def parseAll (app : adept) (argsList : List (List Char)) : ParseAll :=
  (ParseAll.ok app argsList)
    |> parseOne (·.optHelp) (fun a o => { a with optHelp := o })
    |> parseOne (·.optOutDir) (fun a o => { a with optOutDir := o })
    |> parseOne (·.optFetchDeps) (fun a o => { a with optFetchDeps := o })
    |> parseOne (·.optRepo) (fun a o => { a with optRepo := o })
    |> parseOne (·.optForce) (fun a o => { a with optForce := o })
    |> parseOne (·.optIndex) (fun a o => { a with optIndex := o })

/-- The loop of lines 249-260 over the remaining arguments: `none` at the first argument the
pattern does not match (with the message printed), else the packages appended. -/
def packagesLoop : List (List Char) → adept → Option adept × adept
  | [], app => (some app, app)
  | arg :: rest, app =>
    match regexSearch packageNameVersionRegex (cString arg) with
    | none =>
      (none, app.print (Strings.invalidPackageName ++ arg ++ endl ++ Strings.packageFormat ++ endl))
    | some pieces =>
      packagesLoop rest { app with packages := app.packages ++ [(pieces.getD 0 [], pieces.getD 2 [])] }

/-- How `adept::run` ends: it returns a code, or an exception leaves it. -/
inductive RunEnd where
  | returned (code : Int)
  | invalidArgument
  | outOfRangeThrown
deriving Repr, DecidableEq

/-- `adept::run` (lines 215-268). `argsv` is the whole argument vector, the command name
first; `script` is what the network answers. -/
def run (fuel : Nat) (script : List Response) (app : adept) (argsv : List (List Char)) :
    Outcome (RunEnd × adept) :=
  if argsv.length ≤ 1 then
    (help fuel app).bind fun app1 => .done (.returned ReturnCode.ok, app1)
  else
    match parseAll app (argsv.drop 1) with
    | .threw app1 _ => .done (.invalidArgument, app1)
    | .ok app1 argsList =>
      if app1.optHelp.isSet then
        (help fuel app1).bind fun app2 => .done (.returned ReturnCode.ok, app2)
      else
        match packagesLoop argsList app1 with
        | (none, app2) => .done (.returned ReturnCode.invalidPackage, app2)
        | (some _, app2) =>
          match valueAt app2.optRepo 0, valueAt app2.optIndex 0 with
          | .value repo, .value index =>
            let app3 := (fetchFile script app2 (repo ++ "/".toList ++ index)).2
            .done (.returned 0, { app3 with out := app3.out ++ [.xml app3.fileBuffer] })
          | .threwOutOfRange, _ => .done (.outOfRangeThrown, app2)
          | .pastEnd, _ => .outOfRange
          | .value _, .threwOutOfRange => .done (.outOfRangeThrown, app2)
          | .value _, .pastEnd => .outOfRange

/-! ## Notions used to state and to prove the claims -/

/-- The two facts the word wrap tracks about a text, read from its front: the length of the
longest line that has ended, and the length of the line that is still open. A line ends at
a line break. -/
def lineStep (st : Nat × Nat) (c : Char) : Nat × Nat :=
  if c = '\n' then (max st.1 st.2, 0) else (st.1, st.2 + 1)

/-- The length of the longest line of a text. -/
def longestLine (s : List Char) : Nat :=
  max (s.foldl lineStep (0, 0)).1 (s.foldl lineStep (0, 0)).2

/-- What the loop keeps true of the text built so far: no ended line is longer than `M`, the
open line is no longer than the tracked column, and the tracked column is at most `M`. -/
def WrapInv (M : Nat) (formatted : List Char) (col : Int) : Prop :=
  (formatted.foldl lineStep (0, 0)).1 ≤ M ∧ ((formatted.foldl lineStep (0, 0)).2 : Int) ≤ col ∧
    col ≤ M

/-- The decimal numeral of `i`, most significant digit first, without leading zeros. -/
def decimal (i : Nat) : List Char :=
  if i = 0 then ['0'] else (Nat.digits 10 i).reverse.map Nat.digitChar

/-! ## Command lines, to state the end-to-end claim -/

/-- One element of a command line as it is written: a positional token, or a label with the
argument tokens that follow it. -/
inductive Item where
  | positional (tok : List Char)
  | flag (label : List Char) (values : List (List Char))
deriving Repr, DecidableEq

/-- The tokens of one element. -/
def Item.tokens : Item → List (List Char)
  | .positional tok => [tok]
  | .flag label values => label :: values

/-- The token stream of a command line. -/
def tokensOf : List Item → List (List Char)
  | [] => []
  | x :: xs => x.tokens ++ tokensOf xs

/-- The positional tokens of a command line, in order. -/
def positionals : List Item → List (List Char)
  | [] => []
  | .positional tok :: xs => tok :: positionals xs
  | .flag _ _ :: xs => positionals xs

/-- The element is a flag written with one of the labels of the option. -/
def isFlagOf (opt : CmdLineOption) : Item → Bool
  | .positional _ => false
  | .flag label _ => decide (label = opt.shortLabel ∨ label = opt.longLabel)

/-- The option as the command line binds it: set, with the values of its flag, when the
command line holds a flag of the option, and untouched otherwise. -/
def boundBy (opt : CmdLineOption) : List Item → CmdLineOption
  | [] => opt
  | .positional _ :: xs => boundBy opt xs
  | .flag label values :: xs =>
    if label = opt.shortLabel ∨ label = opt.longLabel then
      { opt with set := true, args := values }
    else boundBy opt xs

/-- An element fits a table of options: a positional token is no label of the table; a flag
carries a label of the table, as many arguments as the arity of the option with that
label, and no argument that is a label of the table. -/
def Item.wellFormed (table : List CmdLineOption) : Item → Prop
  | .positional tok => ∀ o ∈ table, ¬ isLabel o tok
  | .flag label values =>
    (∃ o ∈ table, isLabel o label) ∧
    (∀ o ∈ table, isLabel o label → values.length = o.nArgs.toNat) ∧
    (∀ v ∈ values, ∀ o ∈ table, ¬ isLabel o v)

instance (table : List CmdLineOption) (x : Item) : Decidable (x.wellFormed table) := by
  cases x <;> unfold Item.wellFormed <;> infer_instance

/-- A command line for a table of options: every element fits the table and no option has
more than one flag. -/
def WellFormed (table : List CmdLineOption) (items : List Item) : Prop :=
  (∀ x ∈ items, x.wellFormed table) ∧
  (∀ o ∈ table, (items.filter (isFlagOf o)).length ≤ 1)

instance (table : List CmdLineOption) (items : List Item) :
    Decidable (WellFormed table items) := by
  unfold WellFormed; infer_instance

/-- No label of the one option is a label of the other. -/
def labelsApart (o p : CmdLineOption) : Prop :=
  o.shortLabel ≠ p.shortLabel ∧ o.shortLabel ≠ p.longLabel ∧
  o.longLabel ≠ p.shortLabel ∧ o.longLabel ≠ p.longLabel

instance (o p : CmdLineOption) : Decidable (labelsApart o p) := by
  unfold labelsApart; infer_instance

/-! ## Lines of a text -/

/-- The lines of a text: the pieces between its line breaks, in order. -/
def splitLines : List Char → List (List Char)
  | [] => [[]]
  | c :: cs =>
    if c = '\n' then [] :: splitLines cs
    else ((splitLines cs).headD []).cons c :: (splitLines cs).tail

/-- The text with the lines `ended`, each followed by a line break, and then the open
line `cur`. -/
def joinLines : List (List Char) → List Char → List Char
  | [], cur => cur
  | l :: ls, cur => l ++ '\n' :: joinLines ls cur

/-- A line of wrapped help text: it begins with `N` spaces and is at most `W` long. -/
def Indented (N W : Nat) (line : List Char) : Prop :=
  line.take N = List.replicate N ' ' ∧ line.length ≤ W

/-- What the word wrap keeps true of the lines written so far and the tracked column: no
line holds a line break, the tracked column is the length of the open line and not below
the indentation, and every line but the first is indented and fits. -/
def Tracked (N W : Nat) (ended : List (List Char)) (cur : List Char) (col : Int) : Prop :=
  (∀ l ∈ ended, '\n' ∉ l) ∧ '\n' ∉ cur ∧ (cur.length : Int) = col ∧ (N : Int) ≤ col ∧
  (∀ l ∈ ended.tail, Indented N W l) ∧ (ended ≠ [] → Indented N W cur)

/-- The text `t` ends with a line of `ended` that is exactly `W` long: `t` is the text of
the lines up to and including that line. -/
def ClosedFull (W : Nat) (ended : List (List Char)) (t : List Char) : Prop :=
  ∃ (pre : List (List Char)) (line : List Char) (post : List (List Char)),
    ended = pre ++ line :: post ∧ t = joinLines pre line ∧ line.length = W

/-! ## Words of a text, to state the tokenizer claim -/

/-- Written from the claim, not from the source: the maximal runs of characters that are no
whitespace, in order of appearance. The text is cut at every whitespace character and the
empty pieces, which lie between two neighbouring whitespace characters or at an end of the
text, are dropped. -/
def maximalRuns (input : List Char) : List (List Char) :=
  (input.splitOnP isspace).filter (fun w => !w.isEmpty)

/-! # Theorems -/

/-! ## Lemmas about the scan -/

theorem parseLoop_nil (opt : CmdLineOption) (before : List (List Char)) :
    parseLoop opt before [] = .returned opt.set opt before := by
  rw [parseLoop]

theorem parseLoop_cons_noLabel (opt : CmdLineOption) (before rest : List (List Char))
    (tok : List Char) (h : ¬ isLabel opt tok) :
    parseLoop opt before (tok :: rest) = parseLoop opt (before ++ [tok]) rest := by
  rw [parseLoop]
  unfold isLabel at h
  simp [h]

/-- Tokens that are no label are stepped over one by one and stay in the list. -/
theorem parseLoop_append_noLabel (opt : CmdLineOption) (pre : List (List Char)) :
    ∀ (before rest : List (List Char)), (∀ t ∈ pre, ¬ isLabel opt t) →
      parseLoop opt before (pre ++ rest) = parseLoop opt (before ++ pre) rest := by
  induction pre with
  | nil => intro before rest _; simp
  | cons t ts ih =>
    intro before rest h
    have ht : ¬ isLabel opt t := h t (List.mem_cons_self _ _)
    have hts : ∀ u ∈ ts, ¬ isLabel opt u := fun u hu => h u (List.mem_cons_of_mem _ hu)
    rw [List.cons_append, parseLoop_cons_noLabel opt before (ts ++ rest) t ht, ih _ _ hts]
    simp

/-- A scan over tokens none of which is a label changes nothing. -/
theorem parseLoop_noLabel (opt : CmdLineOption) (before after : List (List Char))
    (h : ∀ t ∈ after, ¬ isLabel opt t) :
    parseLoop opt before after = .returned opt.set opt (before ++ after) := by
  have := parseLoop_append_noLabel opt after before [] h
  simp only [List.append_nil] at this
  rw [this, parseLoop_nil]

/-- The step of the loop on a label whose arguments end the list: the iterator wraps. -/
theorem parseLoop_cons_label_end (opt : CmdLineOption) (before rest : List (List Char))
    (tok : List Char) (h : isLabel opt tok) (hlen : opt.nArgs.toNat ≤ rest.length)
    (hd : rest.drop opt.nArgs.toNat = []) :
    parseLoop opt before (tok :: rest) =
      parseLoop { opt with set := true, args := rest.take opt.nArgs.toNat } [] before := by
  rw [parseLoop]
  unfold isLabel at h
  have h2 : ¬ rest.length < opt.nArgs.toNat := by omega
  simp only [h, h2, if_true, if_false]
  split
  · rfl
  · simp_all

/-- The step of the loop on a label whose arguments are followed by a token: that token is
stepped over. -/
theorem parseLoop_cons_label_more (opt : CmdLineOption) (before rest : List (List Char))
    (tok skipped : List Char) (rest1 : List (List Char)) (h : isLabel opt tok)
    (hlen : opt.nArgs.toNat ≤ rest.length)
    (hd : rest.drop opt.nArgs.toNat = skipped :: rest1) :
    parseLoop opt before (tok :: rest) =
      parseLoop { opt with set := true, args := rest.take opt.nArgs.toNat }
        (before ++ [skipped]) rest1 := by
  rw [parseLoop]
  unfold isLabel at h
  have h2 : ¬ rest.length < opt.nArgs.toNat := by omega
  simp only [h, h2, if_true, if_false]
  split
  · simp_all
  · rename_i s r heq
    rw [hd] at heq
    cases heq
    rfl

/-- The step of the loop on a label that is followed by too few tokens. -/
theorem parseLoop_cons_label_short (opt : CmdLineOption) (before rest : List (List Char))
    (tok : List Char) (h : isLabel opt tok) (hlen : rest.length < opt.nArgs.toNat) :
    parseLoop opt before (tok :: rest) =
      .invalidArgument { opt with set := true, args := rest } before := by
  rw [parseLoop]
  unfold isLabel at h
  simp [h, hlen]

theorem isLabel_update (opt : CmdLineOption) (b : Bool) (values : List (List Char))
    (t : List Char) : isLabel { opt with set := b, args := values } t ↔ isLabel opt t :=
  Iff.rfl

/-! ## Claims about `parse` -/

/-- C2. Single match: on a stream `pre ++ [flag] ++ args ++ post` where `flag` is one of the
labels, `args` has as many tokens as the arity and no token of `pre` or `post` is a label,
`parse` returns true with `set` true and `args` equal to the arguments in order, and the
stream is left as `pre ++ post`. -/
theorem parse_single_match (opt : CmdLineOption) (k : Nat) (flag : List Char)
    (pre args post : List (List Char)) (hk : opt.nArgs = k)
    (hflag : flag = opt.shortLabel ∨ flag = opt.longLabel) (hargs : args.length = k)
    (hpre : ∀ t ∈ pre, t ≠ opt.shortLabel ∧ t ≠ opt.longLabel)
    (hpost : ∀ t ∈ post, t ≠ opt.shortLabel ∧ t ≠ opt.longLabel) :
    parse opt (pre ++ [flag] ++ args ++ post) =
      .returned true { opt with set := true, args := args } (pre ++ post) ∧
    ({ opt with set := true, args := args } : CmdLineOption).getArgs.length = k := by
  refine ⟨?_, hargs⟩
  have hpre1 : ∀ t ∈ pre, ¬ isLabel opt t := fun t ht hl => by
    unfold isLabel at hl
    have := hpre t ht
    tauto
  have hpost1 : ∀ t ∈ post, ¬ isLabel opt t := fun t ht hl => by
    unfold isLabel at hl
    have := hpost t ht
    tauto
  have hn : opt.nArgs.toNat = k := by rw [hk]; simp
  have hlen : opt.nArgs.toNat ≤ (args ++ post).length := by
    rw [hn, List.length_append]; omega
  have htake : (args ++ post).take opt.nArgs.toNat = args := by
    rw [hn, ← hargs]; simp
  have hdrop : (args ++ post).drop opt.nArgs.toNat = post := by
    rw [hn, ← hargs]; simp
  unfold parse
  have hshape : pre ++ [flag] ++ args ++ post = pre ++ (flag :: (args ++ post)) := by simp
  rw [hshape, parseLoop_append_noLabel opt pre [] _ hpre1, List.nil_append]
  cases post with
  | nil =>
    rw [parseLoop_cons_label_end opt pre _ flag hflag hlen hdrop, htake]
    rw [parseLoop_noLabel _ [] pre (fun t ht => (isLabel_update opt true args t).not.mpr (hpre1 t ht))]
    simp
  | cons x xs =>
    rw [parseLoop_cons_label_more opt pre _ flag x xs hflag hlen hdrop, htake]
    rw [parseLoop_noLabel _ (pre ++ [x]) xs
      (fun t ht => (isLabel_update opt true args t).not.mpr
        (hpost1 t (List.mem_cons_of_mem _ ht)))]
    simp

/-- Witness of C2: `-r custom.repo` between two other tokens. -/
theorem parse_single_match_witness :
    parse optRepo (["a".toList] ++ ["-r".toList] ++ ["custom.repo".toList] ++ ["b".toList]) =
      .returned true { optRepo with set := true, args := ["custom.repo".toList] }
        (["a".toList] ++ ["b".toList]) ∧
    ({ optRepo with set := true, args := ["custom.repo".toList] } : CmdLineOption).getArgs.length
      = 1 :=
  parse_single_match optRepo 1 "-r".toList ["a".toList] ["custom.repo".toList] ["b".toList]
    (by decide) (by decide) (by decide) (by decide) (by decide)

/-- C3. MalformedOption: when the first token of the stream that is a label has fewer tokens
behind it than the arity (which is then at least 1), `parse` does not return: it throws
`std::invalid_argument`, with the label and the tokens behind it already taken from the
stream. -/
theorem parse_malformed (opt : CmdLineOption) (k : Nat) (flag : List Char)
    (pre rest : List (List Char)) (hk : opt.nArgs = k)
    (hflag : flag = opt.shortLabel ∨ flag = opt.longLabel)
    (hpre : ∀ t ∈ pre, t ≠ opt.shortLabel ∧ t ≠ opt.longLabel)
    (hrest : rest.length < k) :
    parse opt (pre ++ flag :: rest) =
      .invalidArgument { opt with set := true, args := rest } pre := by
  have hpre1 : ∀ t ∈ pre, ¬ isLabel opt t := fun t ht hl => by
    unfold isLabel at hl
    have := hpre t ht
    tauto
  have hn : opt.nArgs.toNat = k := by rw [hk]; simp
  unfold parse
  rw [parseLoop_append_noLabel opt pre [] _ hpre1, List.nil_append]
  exact parseLoop_cons_label_short opt pre rest flag hflag (by omega)

/-- Witness of C3: `--out-dir` as the last token. -/
theorem parse_malformed_witness :
    parse optOutDir (["x".toList] ++ "--out-dir".toList :: []) =
      .invalidArgument { optOutDir with set := true, args := [] } ["x".toList] :=
  parse_malformed optOutDir 1 "--out-dir".toList ["x".toList] [] (by decide) (by decide)
    (by decide) (by decide)

/-- C1, at the failing input. The option `-r` of arity 1 on the stream `-r a -r b`: the
second `-r` stands right behind the argument of the first, the loop steps over it, and
`parse` returns with the arguments of the first occurrence and leaves `-r b` in the stream. -/
theorem parse_adjacent_repeat_keeps_first :
    parse optRepo ["-r".toList, "a".toList, "-r".toList, "b".toList] =
      .returned true { optRepo with set := true, args := ["a".toList] }
        ["-r".toList, "b".toList] := by
  simp [parse, parseLoop, optRepo, CmdLineOption.new]

/-- C4, at the failing input. The option `-h` on the stream `-h -h`: `parse` returns
normally and the second `-h` is still in the stream. -/
theorem parse_leaves_adjacent_label :
    parse optHelp ["-h".toList, "-h".toList] =
      .returned true { optHelp with set := true } ["-h".toList] ∧
    "-h".toList = optHelp.shortLabel := by
  constructor
  · simp [parse, parseLoop, optHelp, CmdLineOption.new]
  · rfl


theorem toSizeT_of_nonneg (x : Int) (h0 : 0 ≤ x) (h1 : x < 2 ^ 64) : toSizeT x = x.toNat := by
  unfold toSizeT
  rw [Int.emod_eq_of_lt h0 h1]

theorem wrapLoop_stuck (rest : List (List Char)) :
    ∀ (fuel : Nat) (formatted : List Char) (col : Int), col = 0 ∨ col ≥ 8 →
      wrapLoop 0 0 8 fuel ("Displays".toList :: rest) formatted col = .noFuel := by
  intro fuel
  induction fuel with
  | zero => intro formatted col _; rfl
  | succ n ih =>
    intro formatted col h
    rcases h with h | h
    · subst h
      rw [wrapLoop]
      have e1 : ¬ ((0 : Int) ≥ 8) := by decide
      simp only [e1, if_false]
      have e2 : ¬ ("Displays".toList.length > toSizeT (8 - 0 - 0)) := by decide
      have e3 : ¬ ("Displays".toList.length < toSizeT (8 - 0)) := by decide
      simp only [e2, e3, if_false]
      exact ih _ _ (Or.inl rfl)
    · rw [wrapLoop]
      simp only [h, if_true]
      exact ih _ _ (Or.inl rfl)

theorem render_optHelp_preprocess (fuel : Nat) :
    preprocessHelpText fuel optHelp =
      .done ["Displays".toList, "this".toList, "help".toList, "menu.".toList] := by
  unfold preprocessHelpText
  have : findWords optHelp.helpText [] = some (4, ["Displays".toList, "this".toList, "help".toList, "menu.".toList]) := by
    decide
  rw [this]
  rfl

/-- C5, at the failing input. The help option of the program rendered with `startIndent = 0`,
`helpTextIndent = 0` and `wrapLength = 8`: the first word, `Displays`, is exactly as long as
the usable width, so it is neither split (its length is not greater than the width) nor
appended (its length is not less than the room of an empty line), and every round of the
loop only starts a new line. Whatever the fuel, the loop has not ended. -/
theorem render_never_ends_at_exact_width (fuel : Nat) :
    getFormattedHelpText fuel optHelp 0 0 8 = .noFuel := by
  unfold getFormattedHelpText
  rw [render_optHelp_preprocess]
  simp only [Outcome.bind]
  apply wrapLoop_stuck
  right
  decide

theorem lineStep_newline (st : Nat × Nat) : lineStep st '\n' = (max st.1 st.2, 0) := by
  simp [lineStep]

theorem lineStep_other (st : Nat × Nat) (c : Char) (h : c ≠ '\n') :
    lineStep st c = (st.1, st.2 + 1) := by
  simp [lineStep, h]

theorem foldl_lineStep_bound (t : List Char) :
    ∀ (st : Nat × Nat), (t.foldl lineStep st).1 ≤ max st.1 (st.2 + t.length) ∧
      (t.foldl lineStep st).2 ≤ st.2 + t.length := by
  induction t with
  | nil => intro st; simp
  | cons c cs ih =>
    intro st
    simp only [List.foldl_cons, List.length_cons]
    by_cases hc : c = '\n'
    · subst hc
      have := ih (lineStep st '\n')
      rw [lineStep_newline] at this ⊢
      simp only at this
      omega
    · have := ih (lineStep st c)
      rw [lineStep_other st c hc] at this ⊢
      simp only at this
      omega

theorem wrapInv_append (M : Nat) (formatted t : List Char) (col : Int)
    (h : WrapInv M formatted col) (hfit : col + t.length ≤ M) :
    WrapInv M (formatted ++ t) (col + t.length) := by
  obtain ⟨h1, h2, _⟩ := h
  have := foldl_lineStep_bound t (formatted.foldl lineStep (0, 0))
  unfold WrapInv
  rw [List.foldl_append]
  refine ⟨?_, ?_, hfit⟩ <;> omega

theorem wrapInv_indent (M : Nat) (formatted : List Char) (col amount : Int)
    (h : WrapInv M formatted col) (h0 : 0 ≤ amount) (h1 : amount < 2 ^ 64) (h2 : amount ≤ M) :
    WrapInv M (indent formatted amount).1 (indent formatted amount).2 := by
  obtain ⟨h3, h4, h5⟩ := h
  unfold indent WrapInv
  simp only [List.foldl_append, List.foldl_cons, List.foldl_nil]
  have hb := foldl_lineStep_bound (List.replicate (toSizeT amount) ' ')
    (lineStep (formatted.foldl lineStep (0, 0)) '\n')
  rw [toSizeT_of_nonneg amount h0 h1] at hb ⊢
  rw [lineStep_newline] at hb ⊢
  simp only [List.length_replicate] at hb
  refine ⟨?_, ?_, h2⟩ <;> omega

theorem wrapLoop_line_bound (startIndent helpTextIndent wrapLength : Int) (M : Nat)
    (h0 : 0 ≤ startIndent) (h1 : 0 ≤ helpTextIndent)
    (h2 : startIndent + helpTextIndent < wrapLength) (hw : wrapLength ≤ 2147483647)
    (hM : wrapLength ≤ M) :
    ∀ (fuel : Nat) (words : List (List Char)) (formatted : List Char) (col : Int) (s : List Char),
      WrapInv M formatted col →
      wrapLoop startIndent helpTextIndent wrapLength fuel words formatted col = .done s →
      longestLine s ≤ M := by
  intro fuel
  induction fuel with
  | zero =>
    intro words formatted col s hinv h
    cases words with
    | nil =>
      simp only [wrapLoop, Outcome.done.injEq] at h
      subst h
      obtain ⟨h3, h4, h5⟩ := hinv
      unfold longestLine
      omega
    | cons w ws => simp [wrapLoop] at h
  | succ n ih =>
    intro words formatted col s hinv h
    cases words with
    | nil =>
      simp only [wrapLoop, Outcome.done.injEq] at h
      subst h
      obtain ⟨h3, h4, h5⟩ := hinv
      unfold longestLine
      omega
    | cons w ws =>
      have hind : WrapInv M (indent formatted (startIndent + helpTextIndent)).1
          (indent formatted (startIndent + helpTextIndent)).2 :=
        wrapInv_indent M formatted col _ hinv (by omega) (by omega) (by omega)
      rw [wrapLoop] at h
      split_ifs at h with c1 c2 c3
      · exact ih _ _ _ s hind h
      · refine ih _ _ _ s ?_ h
        have hcol : 0 ≤ col := by
          obtain ⟨_, h4, _⟩ := hinv
          omega
        have hlen : ((w.take (toSizeT (wrapLength - col))).length : Int) ≤ wrapLength - col := by
          rw [toSizeT_of_nonneg _ (by omega) (by omega), List.length_take]
          omega
        have happ := wrapInv_append M formatted (w.take (toSizeT (wrapLength - col))) col hinv
          (by omega)
        exact wrapInv_indent M _ _ _ happ (by omega) (by omega) (by omega)
      · refine ih _ _ _ s ?_ h
        have hcol : 0 ≤ col := by
          obtain ⟨_, h4, _⟩ := hinv
          omega
        rw [toSizeT_of_nonneg _ (by omega) (by omega)] at c3
        have happ := wrapInv_append M formatted (w ++ [' ']) col hinv
          (by simp only [List.length_append, List.length_singleton]; omega)
        simp only [List.length_append, List.length_singleton] at happ
        rw [List.append_assoc]
        have e : col + (w.length : Int) + 1 = col + ((w.length + 1 : Nat) : Int) := by push_cast; ring
        rw [e]
        exact happ
      · exact ih _ _ _ s hind h

theorem wrapInv_start (M : Nat) (formatted : List Char) (h : formatted.length ≤ M) :
    WrapInv M formatted formatted.length := by
  have := foldl_lineStep_bound formatted (0, 0)
  unfold WrapInv
  simp only at this
  refine ⟨?_, ?_, ?_⟩ <;> omega

theorem padHeader_length (formatted : List Char) (startIndent helpTextIndent : Int)
    (h0 : 0 ≤ startIndent + helpTextIndent) (h1 : startIndent + helpTextIndent < 2 ^ 64) :
    ((padHeader formatted startIndent helpTextIndent).length : Int) =
      max (formatted.length : Int) (startIndent + helpTextIndent) := by
  unfold padHeader
  rw [toSizeT_of_nonneg _ h0 h1]
  split_ifs with h
  · simp only [List.length_append, List.length_replicate]
    omega
  · omega

/-- No line of a text returned by `getFormattedHelpText` is longer than the larger of
`wrapLength` and the length of the header. -/
theorem line_bound_of_returned (fuel : Nat) (opt : CmdLineOption)
    (startIndent helpTextIndent wrapLength : Int) (s : List Char)
    (h0 : 0 ≤ startIndent) (h1 : 0 ≤ helpTextIndent)
    (h2 : startIndent + helpTextIndent < wrapLength) (hw : wrapLength ≤ 2147483647)
    (h : getFormattedHelpText fuel opt startIndent helpTextIndent wrapLength = .done s) :
    (longestLine s : Int) ≤ max wrapLength (helpHeader opt startIndent).length := by
  unfold getFormattedHelpText at h
  cases hp : preprocessHelpText fuel opt with
  | done words =>
    rw [hp] at h
    simp only [Outcome.bind] at h
    have hlen := padHeader_length (helpHeader opt startIndent) startIndent helpTextIndent
      (by omega) (by omega)
    have hM : wrapLength ≤ ((max wrapLength.toNat (helpHeader opt startIndent).length : Nat) : Int) := by
      omega
    have := wrapLoop_line_bound startIndent helpTextIndent wrapLength
      (max wrapLength.toNat (helpHeader opt startIndent).length) h0 h1 h2 hw hM fuel words _ _ s
      (wrapInv_start _ _ (by omega)) h
    omega
  | noFuel => rw [hp] at h; simp [Outcome.bind] at h
  | outOfRange => rw [hp] at h; simp [Outcome.bind] at h

theorem findPlaceholder_none (w : List Char) (h : '%' ∉ w) : findPlaceholder w = none := by
  induction w with
  | nil => rfl
  | cons c cs ih =>
    have hc : c ≠ '%' := fun e => h (e ▸ List.mem_cons_self _ _)
    have hcs : '%' ∉ cs := fun e => h (List.mem_cons_of_mem _ e)
    simp [findPlaceholder, helpTextPlaceholder, hc, ih hcs]

theorem findPlaceholder_append (u v : List Char) (h : '%' ∉ u) :
    findPlaceholder (u ++ '%' :: v) = some u.length := by
  induction u with
  | nil => simp [findPlaceholder, helpTextPlaceholder]
  | cons c cs ih =>
    have hc : c ≠ '%' := fun e => h (e ▸ List.mem_cons_self _ _)
    have hcs : '%' ∉ cs := fun e => h (List.mem_cons_of_mem _ e)
    simp [findPlaceholder, helpTextPlaceholder, hc, ih hcs]

theorem readDigits_none (nDigits : Nat) (v : List Char)
    (hv : ∀ c, v.head? = some c → isdigit c = false) : readDigits nDigits v = [] := by
  cases nDigits with
  | zero => rfl
  | succ n =>
    cases v with
    | nil => rfl
    | cons c cs => simp [readDigits, hv c rfl]

theorem readDigits_append (ds v : List Char) (hds : ∀ c ∈ ds, isdigit c = true) :
    ∀ (nDigits : Nat), ds.length ≤ nDigits →
      (ds.length = nDigits ∨ ∀ c, v.head? = some c → isdigit c = false) →
      readDigits nDigits (ds ++ v) = ds := by
  induction ds with
  | nil =>
    intro nDigits _ h
    rcases h with h | h
    · simp only [List.length_nil] at h
      subst h
      rfl
    · exact readDigits_none nDigits v h
  | cons d ds ih =>
    intro nDigits hlen h
    cases nDigits with
    | zero => simp at hlen
    | succ n =>
      have hd : isdigit d = true := hds d (List.mem_cons_self _ _)
      have hrest : ∀ c ∈ ds, isdigit c = true := fun c hc => hds c (List.mem_cons_of_mem _ hc)
      have hrec := ih hrest n (by simpa using hlen) (by
        rcases h with h | h
        · left; simpa using h
        · right; exact h)
      rw [List.cons_append, readDigits]
      simp only [hd, if_true, hrec]

/-- The body of the loop on a word without `%`. -/
theorem replaceBody_next (replacements : List (List Char)) (nDigits : Nat) (w : List Char)
    (h : '%' ∉ w) : replaceBody replacements nDigits w = .next := by
  rw [replaceBody, findPlaceholder_none w h]

/-- The body of the loop on a word whose first `%` has no digit behind it. -/
theorem replaceBody_bare (replacements : List (List Char)) (nDigits : Nat) (u v : List Char)
    (hu : '%' ∉ u) (hv : ∀ c, v.head? = some c → isdigit c = false) :
    replaceBody replacements nDigits (u ++ '%' :: v) = .again (u ++ v) := by
  rw [replaceBody, findPlaceholder_append u v hu]
  have hdrop : (u ++ '%' :: v).drop (u.length + 1) = v := by
    rw [show u ++ '%' :: v = (u ++ ['%']) ++ v by simp]
    exact List.drop_left' (by simp)
  have htake : (u ++ '%' :: v).take u.length = u := List.take_left' rfl
  simp only [hdrop, readDigits_none nDigits v hv, List.length_nil, if_true, htake,
    Nat.add_zero]

/-- The body of the loop on a word whose first `%` is followed by the digits `ds`. -/
theorem replaceBody_digits (replacements : List (List Char)) (nDigits : Nat)
    (u ds v : List Char) (hu : '%' ∉ u)
    (hne : ds ≠ []) (hds : ∀ c ∈ ds, isdigit c = true) (hlen : ds.length ≤ nDigits)
    (hv : ds.length = nDigits ∨ ∀ c, v.head? = some c → isdigit c = false) :
    replaceBody replacements nDigits (u ++ '%' :: (ds ++ v)) =
      if atoi ds > replacements.length then .again (u ++ v)
      else
        match replacements.get? (atoi ds) with
        | none => .pastEnd
        | some replacement => .again (u ++ replacement ++ v) := by
  rw [replaceBody, findPlaceholder_append u _ hu]
  have hdrop : (u ++ '%' :: (ds ++ v)).drop (u.length + 1) = ds ++ v := by
    rw [show u ++ '%' :: (ds ++ v) = (u ++ ['%']) ++ (ds ++ v) by simp]
    exact List.drop_left' (by simp)
  have hdrop2 : (u ++ '%' :: (ds ++ v)).drop (u.length + 1 + ds.length) = v := by
    rw [show u ++ '%' :: (ds ++ v) = (u ++ ['%'] ++ ds) ++ v by simp]
    exact List.drop_left' (by simp only [List.length_append, List.length_singleton])
  have htake : (u ++ '%' :: (ds ++ v)).take u.length = u := List.take_left' rfl
  have hn : ds.length ≠ 0 := by
    intro h
    exact hne (List.length_eq_zero.mp h)
  simp only [hdrop, readDigits_append ds v hds nDigits hlen hv, hn, if_false, htake, hdrop2]

theorem replaceLoop_succ (replacements : List (List Char)) (nDigits fuel : Nat)
    (processed rest : List (List Char)) (word : List Char) :
    replaceLoop replacements nDigits (fuel + 1) processed (word :: rest) =
      match replaceBody replacements nDigits word with
      | .next => replaceLoop replacements nDigits fuel (processed ++ [word]) rest
      | .again word1 => replaceLoop replacements nDigits fuel processed (word1 :: rest)
      | .pastEnd => .outOfRange := by
  rw [replaceLoop]

theorem replaceLoop_zero (replacements : List (List Char)) (nDigits : Nat)
    (processed rest : List (List Char)) (word : List Char) :
    replaceLoop replacements nDigits 0 processed (word :: rest) = .noFuel := by
  rw [replaceLoop]

/-- When the body of the loop turns the word `x` into `y`, the loop ends with the words `r` on
a list that holds `x` exactly when it does so, with one round less, on the same list with
`y` in the place of `x`. -/
theorem replaceLoop_congr (replacements : List (List Char)) (nDigits : Nat) (x y : List Char)
    (post : List (List Char)) (hstep : replaceBody replacements nDigits x = .again y)
    (r : List (List Char)) :
    ∀ (fuel : Nat) (processed pre : List (List Char)),
      replaceLoop replacements nDigits (fuel + 1) processed (pre ++ x :: post) = .done r ↔
        replaceLoop replacements nDigits fuel processed (pre ++ y :: post) = .done r := by
  intro fuel
  induction fuel with
  | zero =>
    intro processed pre
    cases pre with
    | nil => simp only [List.nil_append]; rw [replaceLoop_succ, hstep]
    | cons p ps =>
      simp only [List.cons_append]
      rw [replaceLoop_succ, replaceLoop_zero]
      cases hb : replaceBody replacements nDigits p with
      | next =>
        cases hps : ps ++ x :: post with
        | nil => simp at hps
        | cons a as => simp [replaceLoop_zero]
      | again w => simp [replaceLoop_zero]
      | pastEnd => simp
  | succ n ih =>
    intro processed pre
    cases pre with
    | nil => simp only [List.nil_append]; rw [replaceLoop_succ, hstep]
    | cons p ps =>
      simp only [List.cons_append]
      rw [replaceLoop_succ, replaceLoop_succ replacements nDigits n]
      cases hb : replaceBody replacements nDigits p with
      | next => exact ih _ ps
      | again w => exact ih _ (w :: ps)
      | pastEnd => simp

/-- On words without `%` the loop moves the iterator to the end and changes nothing. -/
theorem replaceLoop_plain (replacements : List (List Char)) (nDigits : Nat) :
    ∀ (words : List (List Char)) (fuel : Nat) (processed : List (List Char)),
      (∀ w ∈ words, '%' ∉ w) → words.length ≤ fuel →
      replaceLoop replacements nDigits fuel processed words = .done (processed ++ words) := by
  intro words
  induction words with
  | nil => intro fuel processed _ _; simp [replaceLoop]
  | cons w ws ih =>
    intro fuel processed h hf
    cases fuel with
    | zero => simp at hf
    | succ n =>
      rw [replaceLoop_succ, replaceBody_next _ _ w (h w (List.mem_cons_self _ _))]
      simp only
      rw [ih n _ (fun z hz => h z (List.mem_cons_of_mem _ hz)) (by simpa using hf)]
      simp

theorem digitChar_isdigit (d : Nat) (h : d < 10) : isdigit (Nat.digitChar d) = true := by
  interval_cases d <;> decide

theorem digitChar_value (d : Nat) (h : d < 10) : (Nat.digitChar d).toNat - '0'.toNat = d := by
  interval_cases d <;> decide

theorem atoi_append_digit (ds : List Char) (c : Char) :
    atoi (ds ++ [c]) = atoi ds * 10 + (c.toNat - '0'.toNat) := by
  simp [atoi, List.foldl_append]

theorem atoi_digits (l : List Nat) (h : ∀ d ∈ l, d < 10) :
    atoi (l.reverse.map Nat.digitChar) = Nat.ofDigits 10 l := by
  induction l with
  | nil => simp [atoi]
  | cons d ds ih =>
    rw [List.reverse_cons, List.map_append, List.map_singleton, atoi_append_digit,
      ih (fun e he => h e (List.mem_cons_of_mem _ he)),
      digitChar_value d (h d (List.mem_cons_self _ _)), Nat.ofDigits_cons]
    ring

theorem atoi_decimal (i : Nat) : atoi (decimal i) = i := by
  unfold decimal
  split_ifs with h
  · subst h; decide
  · rw [atoi_digits _ (fun d hd => Nat.digits_lt_base (by norm_num) hd), Nat.ofDigits_digits]

theorem decimal_isdigit (i : Nat) : ∀ c ∈ decimal i, isdigit c = true := by
  intro c hc
  unfold decimal at hc
  split_ifs at hc with h
  · simp only [List.mem_singleton] at hc
    subst hc
    decide
  · simp only [List.mem_map, List.mem_reverse] at hc
    obtain ⟨d, hd, rfl⟩ := hc
    exact digitChar_isdigit d (Nat.digits_lt_base (by norm_num) hd)

theorem decimal_ne_nil (i : Nat) : decimal i ≠ [] := by
  unfold decimal
  split_ifs with h
  · simp
  · simp only [ne_eq, List.map_eq_nil_iff, List.reverse_eq_nil_iff]
    exact Nat.digits_ne_nil_iff_ne_zero.mpr h

theorem nDigitsLoop_eq (fuel : Nat) :
    ∀ (size nDigits : Nat), size ≤ fuel →
      nDigitsLoop fuel size nDigits = nDigits + (Nat.digits 10 size).length := by
  induction fuel with
  | zero =>
    intro size nDigits h
    have : size = 0 := by omega
    subst this
    simp [nDigitsLoop]
  | succ n ih =>
    intro size nDigits h
    rw [nDigitsLoop]
    split_ifs with hs
    · rw [ih (size / 10) (nDigits + 1) (by omega), Nat.digits_def' (by norm_num) hs]
      simp only [List.length_cons]
      omega
    · have : size = 0 := by omega
      subst this
      simp

theorem maxDigits_eq (replacements : List (List Char)) :
    maxDigits replacements = (Nat.digits 10 replacements.length).length := by
  unfold maxDigits
  rw [nDigitsLoop_eq _ _ _ (le_refl _)]
  simp

theorem decimal_length_le (replacements : List (List Char)) (i : Nat)
    (h : i < replacements.length) : (decimal i).length ≤ maxDigits replacements := by
  rw [maxDigits_eq]
  unfold decimal
  split_ifs with h0
  · have hpos : replacements.length ≠ 0 := by omega
    have hd : Nat.digits 10 replacements.length ≠ [] := Nat.digits_ne_nil_iff_ne_zero.mpr hpos
    have := List.length_pos.mpr hd
    simpa using this
  · simp only [List.length_map, List.length_reverse]
    exact Nat.le_digits_len_le 10 i replacements.length (le_of_lt h)

theorem replacePlaceholders_eq_loop (fuel : Nat) (words replacements : List (List Char))
    (hr : replacements ≠ []) (hw : words ≠ []) :
    replacePlaceholders fuel words replacements =
      replaceLoop replacements (maxDigits replacements) fuel [] words := by
  unfold replacePlaceholders
  cases replacements with
  | nil => exact absurd rfl hr
  | cons a as =>
    cases words with
    | nil => exact absurd rfl hw
    | cons b bs => simp

/-- C7, as amended. For every list of values that is not empty and every list of words: when
the first `%` of a word has no digit behind it, the words are rendered as they are with that
`%` taken out; and when it is followed by digits `ds` that the loop reads (at most
`maxDigits` of them) whose number is greater than the number of values, the words are
rendered as they are with `%` and `ds` taken out. -/
theorem placeholder_deleted (replacements : List (List Char)) (hne : replacements ≠ [])
    (pre post : List (List Char)) (u v : List Char) (hu : '%' ∉ u) (fuel : Nat)
    (r : List (List Char)) :
    ((∀ c, v.head? = some c → isdigit c = false) →
      (replacePlaceholders (fuel + 1) (pre ++ (u ++ '%' :: v) :: post) replacements = .done r ↔
        replacePlaceholders fuel (pre ++ (u ++ v) :: post) replacements = .done r)) ∧
    (∀ ds : List Char, ds ≠ [] → (∀ c ∈ ds, isdigit c = true) →
      ds.length ≤ maxDigits replacements →
      (ds.length = maxDigits replacements ∨ ∀ c, v.head? = some c → isdigit c = false) →
      atoi ds > replacements.length →
      (replacePlaceholders (fuel + 1) (pre ++ (u ++ '%' :: (ds ++ v)) :: post) replacements
          = .done r ↔
        replacePlaceholders fuel (pre ++ (u ++ v) :: post) replacements = .done r)) := by
  constructor
  · intro hv
    rw [replacePlaceholders_eq_loop _ _ _ hne (by simp),
      replacePlaceholders_eq_loop _ _ _ hne (by simp)]
    exact replaceLoop_congr replacements _ _ _ post
      (replaceBody_bare replacements _ u v hu hv) r fuel [] pre
  · intro ds hds1 hds2 hlen hv hbig
    rw [replacePlaceholders_eq_loop _ _ _ hne (by simp),
      replacePlaceholders_eq_loop _ _ _ hne (by simp)]
    refine replaceLoop_congr replacements _ _ _ post ?_ r fuel [] pre
    rw [replaceBody_digits replacements _ u ds v hu hds1 hds2 hlen hv]
    simp [hbig]

/-- Witness of C7: `100%` and `a%9b` with the two values `X` and `Y`. -/
theorem placeholder_deleted_witness :
    replacePlaceholders 2 ["100%".toList] ["X".toList, "Y".toList] = .done ["100".toList] ∧
    replacePlaceholders 2 ["a%9b".toList] ["X".toList, "Y".toList] = .done ["ab".toList] :=
  ⟨((placeholder_deleted ["X".toList, "Y".toList] (by decide) [] [] "100".toList [] (by decide)
      1 ["100".toList]).1 (by decide)).mpr (by decide),
   ((placeholder_deleted ["X".toList, "Y".toList] (by decide) [] [] "a".toList "b".toList
      (by decide) 1 ["ab".toList]).2 "9".toList (by decide) (by decide) (by decide) (by decide)
      (by decide)).mpr (by decide)⟩

/-- C7 as stated fails for an option without values: `replacePlaceholders` returns at once
and the `%` of `100%` stays. -/
theorem placeholder_kept_without_values :
    replacePlaceholders 5 ["100%".toList] [] = .done ["100%".toList] ∧
    ¬ ∃ fuel, replacePlaceholders fuel ["100%".toList] [] = .done ["100".toList] := by
  constructor
  · decide
  · rintro ⟨fuel, h⟩
    simp [replacePlaceholders] at h

/-- C8. Placeholder substitution: for `i < replacements.size()` and a word
`u ++ "%" ++ decimal(i) ++ v` where `u`, `v` and `replacements[i]` hold no `%` and `v` does
not start with a digit, among words without `%`, `replacePlaceholders` turns the word into
the one word `u ++ replacements[i] ++ v` and leaves the other words as they are (with
fuel for one round per word and one more). Among any words at all, the list renders as it
does with `u ++ replacements[i] ++ v` in the place of the word. -/
theorem placeholder_substituted (replacements : List (List Char)) (i : Nat)
    (hi : i < replacements.length) (pre post : List (List Char)) (u v : List Char)
    (hpre : ∀ w ∈ pre, '%' ∉ w) (hpost : ∀ w ∈ post, '%' ∉ w)
    (hu : '%' ∉ u) (hv : '%' ∉ v) (hval : '%' ∉ replacements.get ⟨i, hi⟩)
    (hvd : ∀ c, v.head? = some c → isdigit c = false)
    (fuel : Nat) (hfuel : pre.length + post.length + 2 ≤ fuel) :
    replacePlaceholders fuel (pre ++ (u ++ '%' :: (decimal i ++ v)) :: post) replacements =
      .done (pre ++ (u ++ replacements.get ⟨i, hi⟩ ++ v) :: post) ∧
    ∀ (pre1 post1 r : List (List Char)) (fuel1 : Nat),
      replacePlaceholders (fuel1 + 1) (pre1 ++ (u ++ '%' :: (decimal i ++ v)) :: post1)
          replacements = .done r ↔
        replacePlaceholders fuel1 (pre1 ++ (u ++ replacements.get ⟨i, hi⟩ ++ v) :: post1)
          replacements = .done r := by
  have hne : replacements ≠ [] := by
    intro h
    rw [h] at hi
    simp at hi
  obtain ⟨f, rfl⟩ : ∃ f, fuel = f + 1 := ⟨fuel - 1, by omega⟩
  have hbody : replaceBody replacements (maxDigits replacements) (u ++ '%' :: (decimal i ++ v)) =
      .again (u ++ replacements.get ⟨i, hi⟩ ++ v) := by
    rw [replaceBody_digits replacements _ u (decimal i) v hu (decimal_ne_nil i)
      (decimal_isdigit i) (decimal_length_le replacements i hi) (Or.inr hvd), atoi_decimal]
    have h1 : ¬ (i > replacements.length) := by omega
    simp only [h1, if_false, List.get?_eq_get hi]
  refine ⟨?_, fun pre1 post1 r fuel1 => ?_⟩
  swap
  · rw [replacePlaceholders_eq_loop _ _ _ hne (by simp),
      replacePlaceholders_eq_loop _ _ _ hne (by simp)]
    exact replaceLoop_congr replacements _ _ _ post1 hbody r fuel1 [] pre1
  rw [replacePlaceholders_eq_loop _ _ _ hne (by simp)]
  rw [replaceLoop_congr replacements _ _ _ post hbody _ f [] pre]
  have := replaceLoop_plain replacements (maxDigits replacements)
    (pre ++ (u ++ replacements.get ⟨i, hi⟩ ++ v) :: post) f []
    (by
      intro w hw
      simp only [List.mem_append, List.mem_cons] at hw
      rcases hw with hw | hw | hw
      · exact hpre w hw
      · subst hw
        simp only [List.mem_append, not_or]
        exact ⟨⟨hu, hval⟩, hv⟩
      · exact hpost w hw)
    (by simp only [List.length_append, List.length_cons]; omega)
  simpa using this

/-- Witness of C8: `%0` with the value `X` becomes `X`. -/
theorem placeholder_substituted_witness :
    replacePlaceholders 2 ["%0".toList] ["X".toList] = .done ["X".toList] :=
  (placeholder_substituted ["X".toList] 0 (by decide) [] [] [] [] (by decide) (by decide)
    (by decide) (by decide) (by decide) (by decide) 2 (by decide)).1

/-! ## Claims about the fetch -/

theorem print_requests (app : adept) (s : List Char) : (app.print s).requests = app.requests :=
  rfl

theorem print_fileBuffer (app : adept) (s : List Char) :
    (app.print s).fileBuffer = app.fileBuffer :=
  rfl

theorem curlPerform_status (app : adept) (url : List Char) (r : Response) :
    (curlPerform app url (some r)).1 = r.status :=
  rfl

theorem curlPerform_headerBuffer (app : adept) (url : List Char) (r : Response) :
    (curlPerform app url (some r)).2.headerBuffer = received r.header :=
  rfl

theorem curlPerform_fileBuffer (app : adept) (url : List Char) (r : Response) :
    (curlPerform app url (some r)).2.fileBuffer = received r.body :=
  rfl

theorem curlPerform_requests (app : adept) (url : List Char) (r : Option Response) :
    (curlPerform app url r).2.requests = app.requests ++ [url] := by
  cases r <;> rfl

/-- A round of the loop of `fetchFile` on a response with status 200. -/
theorem fetchLoop_success (r : Response) (script : List Response) (app : adept)
    (url : List Char) (h1 : r.status = 0) (h2 : getHttpCode (received r.header) = 200) :
    fetchLoop (r :: script) app url =
      (true, (curlPerform app url (some r)).2.print Strings.msgSuccess) := by
  rw [fetchLoop]
  simp only [curlPerform_status, curlPerform_headerBuffer, h1, h2, ne_eq, not_true_eq_false,
    if_false, if_true]

/-- A round of the loop of `fetchFile` on a redirect with a `Location` value. -/
theorem fetchLoop_redirect (r : Response) (script : List Response) (app : adept)
    (url : List Char) (h1 : r.status = 0) (h2 : 300 ≤ getHttpCode (received r.header))
    (h3 : getHttpCode (received r.header) < 400) (h4 : getRedirectUrl (received r.header) ≠ []) :
    fetchLoop (r :: script) app url =
      fetchLoop script
        ((curlPerform app url (some r)).2.print
          (Strings.msgRedirect ++ getRedirectUrl (received r.header) ++ endl))
        (getRedirectUrl (received r.header)) := by
  have hne : getHttpCode (received r.header) ≠ 200 := by omega
  rw [fetchLoop]
  simp only [curlPerform_status, curlPerform_headerBuffer, h1, h2, h3, h4, hne, ne_eq,
    not_true_eq_false, if_false, if_true, ge_iff_le, and_self, not_false_eq_true]

/-- The loop of `fetchFile` on a script that starts with redirects and then answers 200. -/
theorem fetchLoop_follows_redirects (final : Response) (rest : List Response)
    (hfin : final.status = 0 ∧ getHttpCode (received final.header) = 200) :
    ∀ (redirects : List Response) (app : adept) (url : List Char),
      (∀ r ∈ redirects, r.status = 0 ∧ 300 ≤ getHttpCode (received r.header) ∧
        getHttpCode (received r.header) < 400 ∧ getRedirectUrl (received r.header) ≠ []) →
      (fetchLoop (redirects ++ final :: rest) app url).1 = true ∧
      (fetchLoop (redirects ++ final :: rest) app url).2.requests =
        app.requests ++ url :: redirects.map (fun r => getRedirectUrl (received r.header)) ∧
      (fetchLoop (redirects ++ final :: rest) app url).2.fileBuffer =
        final.body.foldl curlWriteData [] ++ ['\x00'] := by
  intro redirects
  induction redirects with
  | nil =>
    intro app url _
    rw [List.nil_append, fetchLoop_success final rest app url hfin.1 hfin.2]
    refine ⟨rfl, ?_, ?_⟩
    · rw [print_requests, curlPerform_requests]
      simp
    · rw [print_fileBuffer, curlPerform_fileBuffer]
      rfl
  | cons r rs ih =>
    intro app url h
    obtain ⟨h1, h2, h3, h4⟩ := h r (List.mem_cons_self _ _)
    have hrs := fun z hz => h z (List.mem_cons_of_mem _ hz)
    rw [List.cons_append, fetchLoop_redirect r _ app url h1 h2 h3 h4]
    obtain ⟨i1, i2, i3⟩ := ih ((curlPerform app url (some r)).2.print
      (Strings.msgRedirect ++ getRedirectUrl (received r.header) ++ endl))
      (getRedirectUrl (received r.header)) hrs
    refine ⟨i1, ?_, i3⟩
    rw [i2, print_requests, curlPerform_requests]
    simp

/-- The part of C9 the code does, with the capture of the pattern `Location:\s*(\S*)` in the
place of the `Location` value: when the script answers the first requests with redirects
(transfer ok, status in 300..399, a capture that is not empty) and the next with status 200,
`fetchFile` returns true, the requests made are `url` and then the captures in the order of
the script, one request per redirect and one more, and `fileBuffer` holds the body of the 200
response followed by `\0` and nothing else. -/
theorem fetchFile_follows_redirects (redirects : List Response) (final : Response)
    (rest : List Response) (app : adept) (url : List Char)
    (hred : ∀ r ∈ redirects, r.status = 0 ∧ 300 ≤ getHttpCode (received r.header) ∧
      getHttpCode (received r.header) < 400 ∧ getRedirectUrl (received r.header) ≠ [])
    (hfin : final.status = 0 ∧ getHttpCode (received final.header) = 200) :
    (fetchFile (redirects ++ final :: rest) app url).1 = true ∧
    (fetchFile (redirects ++ final :: rest) app url).2.requests =
      app.requests ++ url :: redirects.map (fun r => getRedirectUrl (received r.header)) ∧
    ((fetchFile (redirects ++ final :: rest) app url).2.requests.length =
      app.requests.length + (redirects.length + 1)) ∧
    (fetchFile (redirects ++ final :: rest) app url).2.fileBuffer =
      final.body.foldl curlWriteData [] ++ ['\x00'] := by
  have h := fetchLoop_follows_redirects final rest hfin redirects
    (app.print (Strings.msgFetch ++ url ++ endl)) url hred
  unfold fetchFile
  refine ⟨h.1, h.2.1, ?_, h.2.2⟩
  rw [h.2.1]
  simp [print_requests]

/-- The script `301 -> /a`, `302 -> /b`, `200`, where each capture is the `Location` value. -/
theorem fetchFile_follows_redirects_witness :
    (fetchFile
      ([⟨0, ["HTTP/1.1 301 Moved Permanently\r\n".toList, "Location: /a\r\n".toList, "\r\n".toList],
          ["moved".toList]⟩,
        ⟨0, ["HTTP/1.1 302 Found\r\n".toList, "Location: /b\r\n".toList, "\r\n".toList], []⟩] ++
        ⟨0, ["HTTP/1.1 200 OK\r\n".toList, "\r\n".toList], ["<index>".toList, "</index>".toList]⟩
          :: [])
      adept.new "maven.google.com/master-index.xml".toList).1 = true ∧
    (fetchFile
      ([⟨0, ["HTTP/1.1 301 Moved Permanently\r\n".toList, "Location: /a\r\n".toList, "\r\n".toList],
          ["moved".toList]⟩,
        ⟨0, ["HTTP/1.1 302 Found\r\n".toList, "Location: /b\r\n".toList, "\r\n".toList], []⟩] ++
        ⟨0, ["HTTP/1.1 200 OK\r\n".toList, "\r\n".toList], ["<index>".toList, "</index>".toList]⟩
          :: [])
      adept.new "maven.google.com/master-index.xml".toList).2.requests =
        ["maven.google.com/master-index.xml".toList, "/a".toList, "/b".toList] ∧
    (fetchFile
      ([⟨0, ["HTTP/1.1 301 Moved Permanently\r\n".toList, "Location: /a\r\n".toList, "\r\n".toList],
          ["moved".toList]⟩,
        ⟨0, ["HTTP/1.1 302 Found\r\n".toList, "Location: /b\r\n".toList, "\r\n".toList], []⟩] ++
        ⟨0, ["HTTP/1.1 200 OK\r\n".toList, "\r\n".toList], ["<index>".toList, "</index>".toList]⟩
          :: [])
      adept.new "maven.google.com/master-index.xml".toList).2.fileBuffer =
        "<index></index>\x00".toList :=
  have h := fetchFile_follows_redirects
    [⟨0, ["HTTP/1.1 301 Moved Permanently\r\n".toList, "Location: /a\r\n".toList, "\r\n".toList],
        ["moved".toList]⟩,
      ⟨0, ["HTTP/1.1 302 Found\r\n".toList, "Location: /b\r\n".toList, "\r\n".toList], []⟩]
    ⟨0, ["HTTP/1.1 200 OK\r\n".toList, "\r\n".toList], ["<index>".toList, "</index>".toList]⟩
    [] adept.new "maven.google.com/master-index.xml".toList (by decide) (by decide)
  ⟨h.1, h.2.1, h.2.2.2⟩

/-- C9, at the failing input. A 301 response whose header block holds the line
`Content-Location: /c` in front of the line `Location: /a`, and then a 200 response: the
pattern `Location:\s*(\S*)` is searched in the whole header block and matches first inside
`Content-Location:`, so the capture is `/c` and the second request of `fetchFile` goes to
`/c`, not to the `Location` value `/a`. And when the field name is written `location`, the
pattern matches nowhere: `fetchFile` returns false after the one request. -/
theorem fetchFile_follows_content_location :
    getRedirectUrl (received
      ["HTTP/1.1 301 Moved Permanently\r\n".toList, "Content-Location: /c\r\n".toList,
        "Location: /a\r\n".toList, "\r\n".toList]) = "/c".toList ∧
    (fetchFile
      [⟨0, ["HTTP/1.1 301 Moved Permanently\r\n".toList, "Content-Location: /c\r\n".toList,
          "Location: /a\r\n".toList, "\r\n".toList], []⟩,
        ⟨0, ["HTTP/1.1 200 OK\r\n".toList, "\r\n".toList], ["<index/>".toList]⟩]
      adept.new "x".toList).1 = true ∧
    (fetchFile
      [⟨0, ["HTTP/1.1 301 Moved Permanently\r\n".toList, "Content-Location: /c\r\n".toList,
          "Location: /a\r\n".toList, "\r\n".toList], []⟩,
        ⟨0, ["HTTP/1.1 200 OK\r\n".toList, "\r\n".toList], ["<index/>".toList]⟩]
      adept.new "x".toList).2.requests = ["x".toList, "/c".toList] ∧
    getRedirectUrl (received
      ["HTTP/1.1 301 Moved Permanently\r\n".toList, "location: /a\r\n".toList,
        "\r\n".toList]) = [] ∧
    (fetchFile
      [⟨0, ["HTTP/1.1 301 Moved Permanently\r\n".toList, "location: /a\r\n".toList,
          "\r\n".toList], []⟩,
        ⟨0, ["HTTP/1.1 200 OK\r\n".toList, "\r\n".toList], ["<index/>".toList]⟩]
      adept.new "x".toList).1 = false ∧
    (fetchFile
      [⟨0, ["HTTP/1.1 301 Moved Permanently\r\n".toList, "location: /a\r\n".toList,
          "\r\n".toList], []⟩,
        ⟨0, ["HTTP/1.1 200 OK\r\n".toList, "\r\n".toList], ["<index/>".toList]⟩]
      adept.new "x".toList).2.requests = ["x".toList] := by
  decide

/-! ## Claims about `run` -/

/-- An option without arguments never throws; its `set` stays true when it was, and becomes
true when the scan starts in front of a label. -/
theorem parseLoop_no_args (opt : CmdLineOption) (before after : List (List Char)) :
    opt.nArgs.toNat = 0 →
    ∃ o l, parseLoop opt before after = .returned o.set o l ∧
      (opt.set = true → o.set = true) ∧ ((∃ t ∈ after, isLabel opt t) → o.set = true) := by
  induction opt, before, after using parseLoop.induct with
  | case1 opt before =>
    intro _
    exact ⟨opt, before, parseLoop_nil opt before, id, fun ⟨t, ht, _⟩ => by simp at ht⟩
  | case2 opt before tok rest hl hlen =>
    intro h0
    omega
  | case3 opt before tok rest hl hlen opt1 hd ih =>
    intro h0
    obtain ⟨o, l, h1, h2, _⟩ := ih h0
    refine ⟨o, l, ?_, fun _ => h2 rfl, fun _ => h2 rfl⟩
    rw [parseLoop_cons_label_end opt before rest tok hl (by omega) hd]
    exact h1
  | case4 opt before tok rest hl hlen opt1 skipped rest1 hd ih =>
    intro h0
    obtain ⟨o, l, h1, h2, _⟩ := ih h0
    refine ⟨o, l, ?_, fun _ => h2 rfl, fun _ => h2 rfl⟩
    rw [parseLoop_cons_label_more opt before rest tok skipped rest1 hl (by omega) hd]
    exact h1
  | case5 opt before tok rest hl ih =>
    intro h0
    obtain ⟨o, l, h1, h2, h3⟩ := ih h0
    refine ⟨o, l, ?_, h2, ?_⟩
    · rw [parseLoop_cons_noLabel opt before rest tok hl]
      exact h1
    · rintro ⟨t, ht, hlab⟩
      rcases List.mem_cons.mp ht with e | e
      · subst e
        exact absurd hlab hl
      · exact h3 ⟨t, e, hlab⟩

/-- A round of the loop over `opts` that ends without exception started without one, and
changed only the option it parsed. -/
theorem parseOne_ok (get : adept → CmdLineOption) (put : adept → CmdLineOption → adept)
    (st : ParseAll) (app : adept) (l : List (List Char)) (h : parseOne get put st = .ok app l) :
    ∃ app0 l0 o, st = .ok app0 l0 ∧ app = put app0 o := by
  cases st with
  | threw a b => simp [parseOne] at h
  | ok a b =>
    simp only [parseOne] at h
    split at h
    · rename_i r o rest _
      simp only [ParseAll.ok.injEq] at h
      exact ⟨a, b, o, rfl, h.1.symm⟩
    · simp at h

/-- The help option is set after the loop over `opts` when the arguments hold `-h` or
`--help` and no option has thrown. -/
theorem parseAll_help_set (args : List (List Char)) (app1 : adept) (rest : List (List Char))
    (hmem : "-h".toList ∈ args ∨ "--help".toList ∈ args)
    (hparse : parseAll adept.new args = .ok app1 rest) :
    app1.optHelp.set = true ∧ app1.requests = [] ∧ app1.packages = [] ∧ app1.out = [] := by
  unfold parseAll at hparse
  obtain ⟨a5, l5, o5, h5, e5⟩ := parseOne_ok _ _ _ _ _ hparse
  obtain ⟨a4, l4, o4, h4, e4⟩ := parseOne_ok _ _ _ _ _ h5
  obtain ⟨a3, l3, o3, h3, e3⟩ := parseOne_ok _ _ _ _ _ h4
  obtain ⟨a2, l2, o2, h2, e2⟩ := parseOne_ok _ _ _ _ _ h3
  obtain ⟨a1, l1, o1, h1, e1⟩ := parseOne_ok _ _ _ _ _ h2
  have hlab : ∃ t ∈ args, isLabel optHelp t := by
    rcases hmem with h | h
    · exact ⟨_, h, Or.inl rfl⟩
    · exact ⟨_, h, Or.inr rfl⟩
  obtain ⟨o, l, hp, _, hset⟩ := parseLoop_no_args optHelp [] args rfl
  have hfirst : a1 = { adept.new with optHelp := o } := by
    simp only [parseOne, parse] at h1
    have e : adept.new.optHelp = optHelp := rfl
    rw [e, hp] at h1
    simp only [ParseAll.ok.injEq] at h1
    exact h1.1.symm
  subst e5 e4 e3 e2 e1 hfirst
  exact ⟨hset hlab, rfl, rfl, rfl⟩

theorem helpLoop_keeps (fuel : Nat) (opts : List CmdLineOption) :
    ∀ (app app2 : adept), helpLoop fuel opts app = .done app2 →
      app2.requests = app.requests ∧ app2.packages = app.packages := by
  induction opts with
  | nil =>
    intro app app2 h
    simp only [helpLoop, Outcome.done.injEq] at h
    subst h
    exact ⟨rfl, rfl⟩
  | cons o os ih =>
    intro app app2 h
    rw [helpLoop] at h
    cases ht : getFormattedHelpText fuel o 0 25 100 with
    | done text =>
      rw [ht] at h
      simp only [Outcome.bind] at h
      exact ih (app.print (text ++ endl)) app2 h
    | noFuel => rw [ht] at h; simp [Outcome.bind] at h
    | outOfRange => rw [ht] at h; simp [Outcome.bind] at h

/-- The part of C10 the code does. For every argument vector whose arguments (behind the
command name) hold `-h` or `--help` and on which the loop over `opts` ends without
`std::invalid_argument` (no label of an option with an argument stands where its argument is
missing), `run` is `help()` on the options as parsed, followed by the return of 0 when
`help()` ends: no package specifier is matched and no request is made. -/
theorem run_help_precedence (fuel : Nat) (script : List Response) (cmd : List Char)
    (args : List (List Char)) (app1 : adept) (rest : List (List Char))
    (hmem : "-h".toList ∈ args ∨ "--help".toList ∈ args)
    (hparse : parseAll adept.new args = .ok app1 rest) :
    run fuel script adept.new (cmd :: args) =
      (help fuel app1).bind (fun app2 => .done (.returned 0, app2)) ∧
    ∀ app2, help fuel app1 = .done app2 → app2.requests = [] ∧ app2.packages = [] := by
  obtain ⟨hset, hreq, hpk, _⟩ := parseAll_help_set args app1 rest hmem hparse
  constructor
  · have hlen : ¬ ((cmd :: args).length ≤ 1) := by
      rcases hmem with h | h <;>
      · have := List.length_pos_of_mem h
        simp only [List.length_cons]
        omega
    unfold run
    simp only [hlen, if_false, List.drop_succ_cons, List.drop_zero, hparse,
      CmdLineOption.isSet, hset, if_true]
    rfl
  · intro app2 h
    unfold help at h
    have := helpLoop_keeps fuel _ _ _ h
    rw [print_requests] at this
    exact ⟨this.1.trans hreq, this.2.trans hpk⟩

/-- On `adept -h` the help text is printed and `run` returns 0. -/
theorem run_help_precedence_witness :
    (run 20 [] adept.new ("adept".toList :: ["-h".toList])).bind (fun p => .done p.1) =
      .done (.returned 0) := by
  rw [(run_help_precedence 20 [] "adept".toList ["-h".toList]
    { adept.new with optHelp := { optHelp with set := true } } [] (by decide)
    (by simp [parseAll, parseOne, parse, parseLoop, adept.new, optHelp, optOutDir, optFetchDeps,
      optRepo, optForce, optIndex, CmdLineOption.new])).1]
  decide

/-- C10, at the failing input. On `adept -h -d` the loop over `opts` parses every option
before `optHelp.isSet()` is tested: the parse of `-d` finds no argument behind the label and
throws `std::invalid_argument`, so `run` ends with that exception and, for no fuel and no
script, returns 0, although `-h` was passed. -/
theorem run_help_then_flag_throws :
    (∃ app1, run 20 [] adept.new ["adept".toList, "-h".toList, "-d".toList] =
      .done (.invalidArgument, app1)) ∧
    ¬ ∃ fuel script app1, run fuel script adept.new ["adept".toList, "-h".toList, "-d".toList] =
      .done (.returned 0, app1) := by
  have hparse : parseAll adept.new ["-h".toList, "-d".toList] =
      .threw { adept.new with optHelp := { optHelp with set := true },
                              optOutDir := { optOutDir with set := true, args := [] } } [] := by
    simp [parseAll, parseOne, parse, parseLoop, adept.new, optHelp, optOutDir, CmdLineOption.new]
  constructor
  · refine ⟨{ adept.new with optHelp := { optHelp with set := true },
                                optOutDir := { optOutDir with set := true, args := [] } }, ?_⟩
    unfold run
    simp only [List.length_cons, List.length_nil, List.drop_succ_cons, List.drop_zero]
    rw [hparse]
    rfl
  · rintro ⟨fuel, script, app1, h⟩
    unfold run at h
    simp only [List.length_cons, List.length_nil, List.drop_succ_cons, List.drop_zero] at h
    rw [hparse] at h
    simp at h
/-! ## Claims about `operator[]` -/

/-- C11. Indexed read: `operator[]` returns `args[i]` for `i < args.size()`, throws
`std::out_of_range` exactly when `i > args.size()`, and at `i == args.size()` passes the
test and reads `args[i]`, an element the vector does not hold. -/
theorem valueAt_bounds (opt : CmdLineOption) (i : Nat) :
    (∀ h : i < opt.args.length, valueAt opt i = .value (opt.args.get ⟨i, h⟩)) ∧
    (valueAt opt i = .threwOutOfRange ↔ i > opt.args.length) ∧
    (i = opt.args.length → valueAt opt i = .pastEnd) := by
  refine ⟨fun h => ?_, ⟨fun h => ?_, fun h => ?_⟩, fun h => ?_⟩
  · have h1 : ¬ (i > opt.args.length) := by omega
    simp only [valueAt, h1, if_false, List.get?_eq_get h]
  · by_contra hc
    simp only [valueAt, hc, if_false] at h
    split at h <;> simp at h
  · simp only [valueAt, h, if_true]
  · have h1 : ¬ (i > opt.args.length) := by omega
    have h2 : opt.args.get? i = none := List.get?_eq_none.mpr (by omega)
    simp only [valueAt, h1, if_false, h2]

/-- Witness of C11: the option `-r` with its one default value, read at 0, 1 and 2. -/
theorem valueAt_bounds_witness :
    valueAt optRepo 0 = .value "maven.google.com".toList ∧
    valueAt optRepo 2 = .threwOutOfRange ∧
    valueAt optRepo 1 = .pastEnd :=
  ⟨(valueAt_bounds optRepo 0).1 (by decide), (valueAt_bounds optRepo 2).2.1.mpr (by decide),
    (valueAt_bounds optRepo 1).2.2 (by decide)⟩

/-! ## More claims about the fetch -/

theorem print_out (app : adept) (s : List Char) : (app.print s).out = app.out ++ [.text s] :=
  rfl

theorem curlPerform_out (app : adept) (url : List Char) (r : Option Response) :
    (curlPerform app url r).2.out = app.out := by
  cases r <;> rfl

/-- A round of the loop of `fetchFile` on a response whose code is neither 200 nor a
redirect. -/
theorem fetchLoop_unhandled (r : Response) (script : List Response) (app : adept)
    (url : List Char) (h1 : r.status = 0) (h2 : getHttpCode (received r.header) ≠ 200)
    (h3 : ¬ (300 ≤ getHttpCode (received r.header) ∧ getHttpCode (received r.header) < 400)) :
    fetchLoop (r :: script) app url =
      (false, (curlPerform app url (some r)).2.print
        (Strings.msgFetchFail ++ url ++ ". ".toList ++ Strings.msgHttpCode ++
          Nat.toDigits 10 (getHttpCode (received r.header)) ++ endl)) := by
  rw [fetchLoop]
  simp only [curlPerform_status, curlPerform_headerBuffer, h1, h2, ne_eq, not_true_eq_false,
    if_false, ge_iff_le, h3]

/-- C12. Unhandled status: when the transfer of the first request succeeds and the status
code read from the header block is neither 200 nor in 300..399, `fetchFile` returns false,
the one request made is the one to `url`, and the last line written names the code; the code
is 0 when the pattern for the status line matches nowhere in the header block. -/
theorem fetchFile_unhandled_status (r : Response) (script : List Response) (app : adept)
    (url : List Char) (h1 : r.status = 0) (h2 : getHttpCode (received r.header) ≠ 200)
    (h3 : ¬ (300 ≤ getHttpCode (received r.header) ∧ getHttpCode (received r.header) < 400)) :
    (fetchFile (r :: script) app url).1 = false ∧
    (fetchFile (r :: script) app url).2.requests = app.requests ++ [url] ∧
    (fetchFile (r :: script) app url).2.out =
      app.out ++ [.text (Strings.msgFetch ++ url ++ endl),
        .text (Strings.msgFetchFail ++ url ++ ". ".toList ++ Strings.msgHttpCode ++
          Nat.toDigits 10 (getHttpCode (received r.header)) ++ endl)] ∧
    (regexSearch httpCodeRegex (cString (received r.header)) = none →
      getHttpCode (received r.header) = 0) := by
  unfold fetchFile
  rw [fetchLoop_unhandled r script _ url h1 h2 h3]
  refine ⟨rfl, ?_, ?_, ?_⟩
  · rw [print_requests, curlPerform_requests, print_requests]
  · rw [print_out, curlPerform_out, print_out]
    simp
  · intro h
    simp only [getHttpCode, h]

/-- Witness of C12: a 404 response. -/
theorem fetchFile_unhandled_status_witness :
    (fetchFile [⟨0, ["HTTP/1.1 404 Not Found\r\n".toList, "\r\n".toList], ["nothing".toList]⟩]
      adept.new "x".toList).1 = false ∧
    (fetchFile [⟨0, ["HTTP/1.1 404 Not Found\r\n".toList, "\r\n".toList], ["nothing".toList]⟩]
      adept.new "x".toList).2.requests = ["x".toList] ∧
    (fetchFile [⟨0, ["HTTP/1.1 404 Not Found\r\n".toList, "\r\n".toList], ["nothing".toList]⟩]
      adept.new "x".toList).2.out =
      [.text "Attempting to fetch file x\n".toList,
       .text "Failed to fetch file x. Server returned code 404\n".toList] :=
  have h := fetchFile_unhandled_status
    ⟨0, ["HTTP/1.1 404 Not Found\r\n".toList, "\r\n".toList], ["nothing".toList]⟩ []
    adept.new "x".toList (by decide) (by decide) (by decide)
  ⟨h.1, h.2.1, h.2.2.1⟩

/-- C13, at the failing input. A 301 response whose `Location` line has an empty value and is
followed by another header line: `\s*` of the pattern runs over the line break, the capture
is the first word of the next line, `Server:`, and `fetchFile` makes a second request, to
that word. -/
theorem fetchFile_empty_location_reads_next_line :
    getRedirectUrl (received
      ["HTTP/1.1 301 Moved Permanently\r\n".toList, "Location: \r\n".toList,
        "Server: nginx\r\n".toList, "\r\n".toList]) = "Server:".toList ∧
    (fetchFile
      [⟨0, ["HTTP/1.1 301 Moved Permanently\r\n".toList, "Location: \r\n".toList,
          "Server: nginx\r\n".toList, "\r\n".toList], []⟩]
      adept.new "x".toList).2.requests = ["x".toList, "Server:".toList] := by
  decide

/-- The part of C13 the code does: when the capture of the `Location` pattern is empty, or the
pattern matches nowhere, `fetchFile` returns false and has made the one request. -/
theorem fetchFile_broken_redirect (r : Response) (script : List Response) (app : adept)
    (url : List Char) (h1 : r.status = 0) (h2 : 300 ≤ getHttpCode (received r.header))
    (h3 : getHttpCode (received r.header) < 400)
    (h4 : getRedirectUrl (received r.header) = []) :
    (fetchFile (r :: script) app url).1 = false ∧
    (fetchFile (r :: script) app url).2.requests = app.requests ++ [url] := by
  have hne : getHttpCode (received r.header) ≠ 200 := by omega
  unfold fetchFile
  rw [fetchLoop]
  simp only [curlPerform_status, curlPerform_headerBuffer, h1, h2, h3, h4, hne, ne_eq,
    not_true_eq_false, if_false, if_true, ge_iff_le, and_self]
  exact ⟨trivial, by rw [curlPerform_requests, print_requests]⟩
/-! ## More claims about `parse` -/

/-- What the scan keeps: the value returned is `set`, and `set` is true with `args` holding
`nArgs` elements when that was so at the start or a label lies ahead. -/
theorem parseLoop_arity (opt : CmdLineOption) (before after : List (List Char)) :
    ∀ (r : Bool) (o : CmdLineOption) (l : List (List Char)),
      parseLoop opt before after = .returned r o l →
      r = o.set ∧
      (((opt.set = true ∧ opt.args.length = opt.nArgs.toNat) ∨ ∃ t ∈ after, isLabel opt t) →
        o.set = true ∧ o.args.length = opt.nArgs.toNat) := by
  induction opt, before, after using parseLoop.induct with
  | case1 opt before =>
    intro r o l h
    rw [parseLoop_nil] at h
    simp only [ParseResult.returned.injEq] at h
    obtain ⟨h1, h2, _⟩ := h
    subst h2
    refine ⟨h1.symm, fun hp => ?_⟩
    rcases hp with hp | ⟨t, ht, _⟩
    · exact hp
    · simp at ht
  | case2 opt before tok rest hl hlen =>
    intro r o l h
    rw [parseLoop_cons_label_short opt before rest tok hl hlen] at h
    simp at h
  | case3 opt before tok rest hl hlen opt1 hd ih =>
    intro r o l h
    rw [parseLoop_cons_label_end opt before rest tok hl (by omega) hd] at h
    obtain ⟨h1, h2⟩ := ih r o l h
    refine ⟨h1, fun _ => ?_⟩
    exact h2 (Or.inl ⟨rfl, by simp only [opt1, List.length_take]; omega⟩)
  | case4 opt before tok rest hl hlen opt1 skipped rest1 hd ih =>
    intro r o l h
    rw [parseLoop_cons_label_more opt before rest tok skipped rest1 hl (by omega) hd] at h
    obtain ⟨h1, h2⟩ := ih r o l h
    refine ⟨h1, fun _ => ?_⟩
    exact h2 (Or.inl ⟨rfl, by simp only [opt1, List.length_take]; omega⟩)
  | case5 opt before tok rest hl ih =>
    intro r o l h
    rw [parseLoop_cons_noLabel opt before rest tok hl] at h
    obtain ⟨h1, h2⟩ := ih r o l h
    refine ⟨h1, fun hp => h2 ?_⟩
    rcases hp with hp | ⟨t, ht, hlab⟩
    · exact Or.inl hp
    · rcases List.mem_cons.mp ht with e | e
      · subst e
        exact absurd hlab hl
      · exact Or.inr ⟨t, e, hlab⟩

/-- C15. Arity invariant: when the stream holds at least one token equal to a label of an
option of arity `k` and `parse` returns, it returns true, `set` is true and `args` holds
exactly `k` values, whatever the defaults were and however often the label occurs. -/
theorem parse_arity_invariant (opt : CmdLineOption) (k : Nat) (argsList : List (List Char))
    (hk : opt.nArgs = k)
    (hmem : ∃ t ∈ argsList, t = opt.shortLabel ∨ t = opt.longLabel)
    (r : Bool) (o : CmdLineOption) (l : List (List Char))
    (h : parse opt argsList = .returned r o l) :
    r = true ∧ o.isSet = true ∧ o.getArgs.length = k := by
  have hn : opt.nArgs.toNat = k := by rw [hk]; simp
  obtain ⟨h1, h2⟩ := parseLoop_arity opt [] argsList r o l h
  obtain ⟨h3, h4⟩ := h2 (Or.inr hmem)
  exact ⟨h1.trans h3, h3, h4.trans hn⟩

/-- Witness of C15: `-r` twice, the second right behind the argument of the first. -/
theorem parse_arity_invariant_witness :
    true = true ∧
    ({ optRepo with set := true, args := ["a".toList] } : CmdLineOption).isSet = true ∧
    ({ optRepo with set := true, args := ["a".toList] } : CmdLineOption).getArgs.length = 1 :=
  parse_arity_invariant optRepo 1 ["-r".toList, "a".toList, "-r".toList, "b".toList]
    (by decide) ⟨"-r".toList, by decide, by decide⟩ true
    { optRepo with set := true, args := ["a".toList] } ["-r".toList, "b".toList]
    (by simp [parse, parseLoop, optRepo, CmdLineOption.new])

/-- C16. Defaults survive a non-match: on a stream without a token equal to a label, `parse`
leaves the stream and the option as they were and returns the `set` it found; for an option
as constructed that is false, with `args` still the defaults. -/
theorem parse_no_match (opt : CmdLineOption) (argsList : List (List Char))
    (h : ∀ t ∈ argsList, t ≠ opt.shortLabel ∧ t ≠ opt.longLabel) :
    parse opt argsList = .returned opt.isSet opt argsList ∧
    (∀ (shortLabel longLabel helpText : List Char) (nArgs : Int)
      (defaults argLabels : List (List Char)),
      opt = CmdLineOption.new shortLabel longLabel nArgs helpText defaults argLabels →
      parse opt argsList = .returned false opt argsList ∧ opt.getArgs = defaults) := by
  have hmain : parse opt argsList = .returned opt.isSet opt argsList := by
    unfold parse
    rw [parseLoop_noLabel opt [] argsList (fun t ht hl => by
      unfold isLabel at hl
      have := h t ht
      tauto)]
    rfl
  refine ⟨hmain, ?_⟩
  intro s l ht n d al hopt
  rw [hmain]
  subst hopt
  exact ⟨rfl, rfl⟩

/-- Witness of C16: the option `-d` on a stream without `-d` and `--out-dir`. -/
theorem parse_no_match_witness :
    parse optOutDir ["-r".toList, "x".toList, "pkg:1".toList] =
      .returned false optOutDir ["-r".toList, "x".toList, "pkg:1".toList] ∧
    optOutDir.getArgs = [".".toList] :=
  (parse_no_match optOutDir ["-r".toList, "x".toList, "pkg:1".toList] (by decide)).2
    "-d".toList "--out-dir".toList
    "Specifies the directory to which the fetched libraries will be written.".toList 1
    [".".toList] ["path".toList] rfl

/-! ## More claims about `replacePlaceholders` -/

/-- C17, at the failing input. One value `X` and the word `%1`: the index read is 1, the test
`replacementIndex > replacements.size()` is `1 > 1`, so the placeholder is not deleted, and
`replacements[1]` is read although the vector holds only `replacements[0]`. -/
theorem placeholder_index_at_size_reads_past_end (fuel : Nat) :
    replaceBody ["X".toList] (maxDigits ["X".toList]) "%1".toList = .pastEnd ∧
    replacePlaceholders (fuel + 1) ["%1".toList] ["X".toList] = .outOfRange := by
  have h : replaceBody ["X".toList] (maxDigits ["X".toList]) "%1".toList = .pastEnd := by decide
  refine ⟨h, ?_⟩
  rw [replacePlaceholders_eq_loop _ _ _ (by decide) (by decide), replaceLoop_succ, h]

/-- C19, at the failing input. The word `%0` with the one value `%0`: the value is put in the
place of the placeholder and the word is searched again from its start, where the `%0` of
the value is found as a placeholder again. Whatever the fuel, the loop has not ended. -/
theorem placeholder_value_is_scanned_again (fuel : Nat) :
    replaceBody ["%0".toList] (maxDigits ["%0".toList]) "%0".toList = .again "%0".toList ∧
    replacePlaceholders fuel ["%0".toList] ["%0".toList] = .noFuel := by
  have h : replaceBody ["%0".toList] (maxDigits ["%0".toList]) "%0".toList =
      .again "%0".toList := by decide
  refine ⟨h, ?_⟩
  rw [replacePlaceholders_eq_loop _ _ _ (by decide) (by decide)]
  induction fuel with
  | zero => rfl
  | succ n ih => rw [replaceLoop_succ, h]; exact ih

/-- C20. Digit budget: for `n >= 1` values the number `D` of digits read behind a `%` is at
most `maxDigits`, the number of decimal digits of `n`: it is the one `D >= 1` with
`10^(D-1) <= n < 10^D`, the ceiling of `log10 (n + 1)`. When `D` digits stand behind the `%`
they are the placeholder and whatever follows, digits too, stays in the word. -/
theorem digit_budget (replacements : List (List Char)) (hn : 1 ≤ replacements.length) :
    1 ≤ maxDigits replacements ∧
    10 ^ (maxDigits replacements - 1) ≤ replacements.length ∧
    replacements.length < 10 ^ maxDigits replacements ∧
    (∀ D : Nat, 1 ≤ D → 10 ^ (D - 1) ≤ replacements.length → replacements.length < 10 ^ D →
      D = maxDigits replacements) ∧
    maxDigits replacements = Nat.clog 10 (replacements.length + 1) ∧
    (∀ t : List Char, (readDigits (maxDigits replacements) t).length ≤ maxDigits replacements) ∧
    (∀ u ds v : List Char, '%' ∉ u → (∀ c ∈ ds, isdigit c = true) →
      ds.length = maxDigits replacements →
      replaceBody replacements (maxDigits replacements) (u ++ '%' :: (ds ++ v)) =
        if atoi ds > replacements.length then .again (u ++ v)
        else
          match replacements.get? (atoi ds) with
          | none => .pastEnd
          | some replacement => .again (u ++ replacement ++ v)) := by
  have hne : replacements.length ≠ 0 := by omega
  have hD : maxDigits replacements = Nat.log 10 replacements.length + 1 := by
    rw [maxDigits_eq, Nat.digits_len 10 _ (by norm_num) hne]
  have hlo : 10 ^ Nat.log 10 replacements.length ≤ replacements.length :=
    Nat.pow_log_le_self 10 hne
  have hhi : replacements.length < 10 ^ (Nat.log 10 replacements.length + 1) :=
    Nat.lt_pow_succ_log_self (by norm_num) _
  refine ⟨by omega, ?_, ?_, ?_, ?_, ?_, ?_⟩
  · rw [hD]; exact hlo
  · rw [hD]; exact hhi
  · intro D h1 h2 h3
    obtain ⟨m, rfl⟩ : ∃ m, D = m + 1 := ⟨D - 1, by omega⟩
    simp only [Nat.add_sub_cancel] at h2
    rw [hD, Nat.log_eq_of_pow_le_of_lt_pow h2 h3]
  · rw [hD]
    apply le_antisymm
    · have : Nat.log 10 replacements.length < Nat.clog 10 (replacements.length + 1) :=
        (Nat.pow_lt_iff_lt_clog (by norm_num)).mp (by omega)
      omega
    · exact (Nat.le_pow_iff_clog_le (by norm_num)).mp (by omega)
  · intro t
    generalize maxDigits replacements = d
    induction d generalizing t with
    | zero => simp [readDigits]
    | succ n ih =>
      cases t with
      | nil => simp [readDigits]
      | cons c cs =>
        rw [readDigits]
        split_ifs
        · simp only [List.length_cons]
          have := ih cs
          omega
        · simp
  · intro u ds v hu hds hlen
    have hds0 : ds ≠ [] := by
      intro h
      rw [h] at hlen
      simp only [List.length_nil] at hlen
      omega
    exact replaceBody_digits replacements _ u ds v hu hds0 hds (le_of_eq hlen) (Or.inl hlen)

/-- Witness of C20: twelve values give a budget of two digits, so `%133` is the placeholder
`%13`, deleted as out of range, and the second `3` stays. -/
theorem digit_budget_witness :
    maxDigits (List.replicate 12 "v".toList) = 2 ∧
    replaceBody (List.replicate 12 "v".toList) (maxDigits (List.replicate 12 "v".toList))
      ([] ++ '%' :: ("13".toList ++ "3".toList)) = .again "3".toList :=
  ⟨by decide,
    ((digit_budget (List.replicate 12 "v".toList) (by decide)).2.2.2.2.2.2
      [] "13".toList "3".toList (by decide) (by decide) (by decide)).trans (by decide)⟩

/-! ## The end-to-end claim -/

/-- The scan from a label whose arguments are there and behind which no label follows. -/
theorem parseLoop_single (opt : CmdLineOption) (before values post : List (List Char))
    (label : List Char) (hl : isLabel opt label) (hlen : values.length = opt.nArgs.toNat)
    (hpre : ∀ t ∈ before, ¬ isLabel opt t) (hpost : ∀ t ∈ post, ¬ isLabel opt t) :
    parseLoop opt before (label :: (values ++ post)) =
      .returned true { opt with set := true, args := values } (before ++ post) := by
  have hlen1 : opt.nArgs.toNat ≤ (values ++ post).length := by
    rw [List.length_append]; omega
  have htake : (values ++ post).take opt.nArgs.toNat = values := by
    rw [← hlen]; simp
  have hdrop : (values ++ post).drop opt.nArgs.toNat = post := by
    rw [← hlen]; simp
  cases post with
  | nil =>
    rw [parseLoop_cons_label_end opt before _ label hl hlen1 hdrop, htake]
    rw [parseLoop_noLabel _ [] before
      (fun t ht => (isLabel_update opt true values t).not.mpr (hpre t ht))]
    simp
  | cons x xs =>
    rw [parseLoop_cons_label_more opt before _ label x xs hl hlen1 hdrop, htake]
    rw [parseLoop_noLabel _ (before ++ [x]) xs
      (fun t ht => (isLabel_update opt true values t).not.mpr
        (hpost t (List.mem_cons_of_mem _ ht)))]
    simp

theorem mem_tokensOf (items : List Item) (t : List Char) (h : t ∈ tokensOf items) :
    ∃ x ∈ items, t ∈ x.tokens := by
  induction items with
  | nil => simp [tokensOf] at h
  | cons x xs ih =>
    simp only [tokensOf, List.mem_append] at h
    rcases h with h | h
    · exact ⟨x, List.mem_cons_self _ _, h⟩
    · obtain ⟨y, hy, hty⟩ := ih h
      exact ⟨y, List.mem_cons_of_mem _ hy, hty⟩

/-- One pass of an option over a command line: the option comes back as the command line
binds it and its flag, when there is one, is gone from the stream. -/
theorem parseLoop_items (opt : CmdLineOption) (items : List Item) :
    ∀ (before : List (List Char)),
      (∀ t ∈ before, ¬ isLabel opt t) →
      (∀ x ∈ items, isFlagOf opt x = false → ∀ t ∈ x.tokens, ¬ isLabel opt t) →
      (∀ label values, Item.flag label values ∈ items → isLabel opt label →
        values.length = opt.nArgs.toNat) →
      (items.filter (isFlagOf opt)).length ≤ 1 →
      parseLoop opt before (tokensOf items) =
        .returned (boundBy opt items).set (boundBy opt items)
          (before ++ tokensOf (items.filter (fun x => !isFlagOf opt x))) := by
  induction items with
  | nil =>
    intro before _ _ _ _
    simp [tokensOf, boundBy, parseLoop_nil]
  | cons x xs ih =>
    intro before hb ha hlen hcount
    cases hx : isFlagOf opt x with
    | false =>
      have htok : ∀ t ∈ x.tokens, ¬ isLabel opt t := ha x (List.mem_cons_self _ _) hx
      have hbound : boundBy opt (x :: xs) = boundBy opt xs := by
        cases x with
        | positional t => rfl
        | flag l vs =>
          simp only [isFlagOf, decide_eq_false_iff_not] at hx
          simp only [boundBy, hx, if_false]
      rw [tokensOf, parseLoop_append_noLabel opt x.tokens before _ htok, hbound,
        ih (before ++ x.tokens)
          (fun t ht => by
            rcases List.mem_append.mp ht with h | h
            · exact hb t h
            · exact htok t h)
          (fun y hy => ha y (List.mem_cons_of_mem _ hy))
          (fun l vs hm => hlen l vs (List.mem_cons_of_mem _ hm))
          (by
            rw [List.filter_cons_of_neg (by simp [hx])] at hcount
            exact hcount)]
      rw [List.filter_cons_of_pos (by simp [hx]), tokensOf, List.append_assoc]
    | true =>
      cases x with
      | positional t => simp [isFlagOf] at hx
      | flag l vs =>
        have hl : isLabel opt l := by
          simpa [isFlagOf] using hx
        have hnone : ∀ y ∈ xs, isFlagOf opt y = false := by
          intro y hy
          by_contra hc
          have hyt : isFlagOf opt y = true := by simpa using hc
          rw [List.filter_cons_of_pos hx] at hcount
          have : y ∈ xs.filter (isFlagOf opt) := List.mem_filter.mpr ⟨hy, hyt⟩
          have := List.length_pos_of_mem this
          simp only [List.length_cons] at hcount
          omega
        have hpost : ∀ t ∈ tokensOf xs, ¬ isLabel opt t := by
          intro t ht
          obtain ⟨y, hy, hty⟩ := mem_tokensOf xs t ht
          exact ha y (List.mem_cons_of_mem _ hy) (hnone y hy) t hty
        have hfilter : (Item.flag l vs :: xs).filter (fun x => !isFlagOf opt x) = xs := by
          rw [List.filter_cons_of_neg (by simp [hx])]
          exact List.filter_eq_self.mpr (fun y hy => by simp [hnone y hy])
        have hbound : boundBy opt (Item.flag l vs :: xs) =
            { opt with set := true, args := vs } := by
          unfold isLabel at hl
          simp only [boundBy, hl, if_true]
        rw [hfilter, hbound]
        exact parseLoop_single opt before vs (tokensOf xs) l hl
          (hlen l vs (List.mem_cons_self _ _) hl) hb hpost

theorem wellFormed_filter (table : List CmdLineOption) (items : List Item) (p : Item → Bool)
    (h : WellFormed table items) : WellFormed table (items.filter p) := by
  obtain ⟨h1, h3⟩ := h
  refine ⟨fun x hx => h1 x (List.mem_filter.mp hx).1, fun o ho => ?_⟩
  exact le_trans ((List.filter_sublist items).filter (isFlagOf o)).length_le (h3 o ho)

/-- One pass of an option of the table over a well formed command line. -/
theorem parse_items (table : List CmdLineOption) (opt : CmdLineOption) (ho : opt ∈ table)
    (items : List Item) (h : WellFormed table items) :
    parse opt (tokensOf items) =
      .returned (boundBy opt items).set (boundBy opt items)
        (tokensOf (items.filter (fun x => !isFlagOf opt x))) := by
  obtain ⟨h1, h3⟩ := h
  unfold parse
  rw [parseLoop_items opt items [] (by simp) ?_
    (fun l vs hm hl => (h1 (.flag l vs) hm).2.1 opt ho hl) (h3 opt ho)]
  · simp
  · intro x hx hf t ht
    cases x with
    | positional tok =>
      simp only [Item.tokens, List.mem_singleton] at ht
      subst ht
      exact h1 _ hx opt ho
    | flag l vs =>
      simp only [Item.tokens, List.mem_cons] at ht
      rcases ht with ht | ht
      · subst ht
        simpa [isFlagOf, isLabel] using hf
      · exact (h1 (.flag l vs) hx).2.2 t ht opt ho

theorem isFlagOf_apart (o p : CmdLineOption) (h : labelsApart o p) (x : Item)
    (hx : isFlagOf o x = true) : isFlagOf p x = false := by
  cases x with
  | positional t => rfl
  | flag l vs =>
    obtain ⟨h1, h2, h3, h4⟩ := h
    simp only [isFlagOf, decide_eq_true_eq] at hx
    simp only [isFlagOf, decide_eq_false_iff_not]
    rintro (e | e) <;> rcases hx with hx | hx <;> subst e <;> simp_all

theorem boundBy_filter (opt : CmdLineOption) (p : Item → Bool)
    (hp : ∀ x, isFlagOf opt x = true → p x = true) (items : List Item) :
    boundBy opt (items.filter p) = boundBy opt items := by
  induction items with
  | nil => rfl
  | cons x xs ih =>
    cases hx : isFlagOf opt x with
    | true =>
      rw [List.filter_cons_of_pos (hp x hx)]
      cases x with
      | positional t => simp [isFlagOf] at hx
      | flag l vs =>
        simp only [isFlagOf, decide_eq_true_eq] at hx
        simp only [boundBy, hx, if_true]
    | false =>
      have hb : ∀ ys, boundBy opt (x :: ys) = boundBy opt ys := by
        intro ys
        cases x with
        | positional t => rfl
        | flag l vs =>
          simp only [isFlagOf, decide_eq_false_iff_not] at hx
          simp only [boundBy, hx, if_false]
      rw [hb xs]
      by_cases hpx : p x = true
      · rw [List.filter_cons_of_pos hpx, hb, ih]
      · rw [List.filter_cons_of_neg hpx, ih]

theorem parseOne_items (table : List CmdLineOption) (get : adept → CmdLineOption)
    (put : adept → CmdLineOption → adept) (app : adept) (opt : CmdLineOption)
    (hget : get app = opt) (ho : opt ∈ table) (items : List Item)
    (h : WellFormed table items) :
    parseOne get put (.ok app (tokensOf items)) =
      .ok (put app (boundBy opt items)) (tokensOf (items.filter (fun x => !isFlagOf opt x))) := by
  simp only [parseOne, hget, parse_items table opt ho items h]

theorem tokensOf_filter_positionals (p : Item → Bool) (items : List Item)
    (hpos : ∀ t, p (.positional t) = true)
    (hflag : ∀ l vs, Item.flag l vs ∈ items → p (.flag l vs) = false) :
    tokensOf (items.filter p) = positionals items := by
  induction items with
  | nil => rfl
  | cons x xs ih =>
    have ih1 := ih (fun l vs hm => hflag l vs (List.mem_cons_of_mem _ hm))
    cases x with
    | positional t =>
      rw [List.filter_cons_of_pos (hpos t), tokensOf, ih1]
      rfl
    | flag l vs =>
      rw [List.filter_cons_of_neg (by simp [hflag l vs (List.mem_cons_self _ _)]), ih1]
      rfl

/-- The loop over `opts` on a well formed command line: every option comes back as the
command line binds it and the stream is left with the positional tokens. -/
theorem parseAll_items (items : List Item) (h : WellFormed adept.new.opts items) :
    parseAll adept.new (tokensOf items) =
      .ok { adept.new with
            optHelp := boundBy optHelp items, optOutDir := boundBy optOutDir items,
            optFetchDeps := boundBy optFetchDeps items, optRepo := boundBy optRepo items,
            optForce := boundBy optForce items, optIndex := boundBy optIndex items }
        (positionals items) := by
  have w1 := wellFormed_filter _ items (fun x => !isFlagOf optHelp x) h
  have w2 := wellFormed_filter _ _ (fun x => !isFlagOf optOutDir x) w1
  have w3 := wellFormed_filter _ _ (fun x => !isFlagOf optFetchDeps x) w2
  have w4 := wellFormed_filter _ _ (fun x => !isFlagOf optRepo x) w3
  have w5 := wellFormed_filter _ _ (fun x => !isFlagOf optForce x) w4
  have keep : ∀ (o p : CmdLineOption), labelsApart o p →
      ∀ x, isFlagOf o x = true → (!isFlagOf p x) = true := by
    intro o p hop x hx
    rw [isFlagOf_apart o p hop x hx]
    rfl
  have m1 : optHelp ∈ adept.new.opts := List.mem_cons_self _ _
  have m2 : optOutDir ∈ adept.new.opts := List.mem_cons_of_mem _ (List.mem_cons_self _ _)
  have m3 : optFetchDeps ∈ adept.new.opts :=
    List.mem_cons_of_mem _ (List.mem_cons_of_mem _ (List.mem_cons_self _ _))
  have m4 : optRepo ∈ adept.new.opts :=
    List.mem_cons_of_mem _ (List.mem_cons_of_mem _ (List.mem_cons_of_mem _
      (List.mem_cons_self _ _)))
  have m5 : optForce ∈ adept.new.opts :=
    List.mem_cons_of_mem _ (List.mem_cons_of_mem _ (List.mem_cons_of_mem _
      (List.mem_cons_of_mem _ (List.mem_cons_self _ _))))
  have m6 : optIndex ∈ adept.new.opts :=
    List.mem_cons_of_mem _ (List.mem_cons_of_mem _ (List.mem_cons_of_mem _
      (List.mem_cons_of_mem _ (List.mem_cons_of_mem _ (List.mem_cons_self _ _)))))
  unfold parseAll
  rw [parseOne_items adept.new.opts (·.optHelp) _ adept.new optHelp rfl m1 items h,
    parseOne_items adept.new.opts (·.optOutDir) _ _ optOutDir rfl m2 _ w1,
    parseOne_items adept.new.opts (·.optFetchDeps) _ _ optFetchDeps rfl m3 _ w2,
    parseOne_items adept.new.opts (·.optRepo) _ _ optRepo rfl m4 _ w3,
    parseOne_items adept.new.opts (·.optForce) _ _ optForce rfl m5 _ w4,
    parseOne_items adept.new.opts (·.optIndex) _ _ optIndex rfl m6 _ w5]
  have b2 : boundBy optOutDir (items.filter (fun x => !isFlagOf optHelp x)) =
      boundBy optOutDir items :=
    boundBy_filter _ _ (keep _ _ (by decide)) _
  have b3 : boundBy optFetchDeps
      ((items.filter (fun x => !isFlagOf optHelp x)).filter (fun x => !isFlagOf optOutDir x)) =
      boundBy optFetchDeps items := by
    rw [boundBy_filter _ _ (keep _ _ (by decide)), boundBy_filter _ _ (keep _ _ (by decide))]
  have b4 : boundBy optRepo
      (((items.filter (fun x => !isFlagOf optHelp x)).filter
        (fun x => !isFlagOf optOutDir x)).filter (fun x => !isFlagOf optFetchDeps x)) =
      boundBy optRepo items := by
    rw [boundBy_filter _ _ (keep _ _ (by decide)), boundBy_filter _ _ (keep _ _ (by decide)),
      boundBy_filter _ _ (keep _ _ (by decide))]
  have b5 : boundBy optForce
      ((((items.filter (fun x => !isFlagOf optHelp x)).filter
        (fun x => !isFlagOf optOutDir x)).filter (fun x => !isFlagOf optFetchDeps x)).filter
        (fun x => !isFlagOf optRepo x)) =
      boundBy optForce items := by
    rw [boundBy_filter _ _ (keep _ _ (by decide)), boundBy_filter _ _ (keep _ _ (by decide)),
      boundBy_filter _ _ (keep _ _ (by decide)), boundBy_filter _ _ (keep _ _ (by decide))]
  have b6 : boundBy optIndex
      (((((items.filter (fun x => !isFlagOf optHelp x)).filter
        (fun x => !isFlagOf optOutDir x)).filter (fun x => !isFlagOf optFetchDeps x)).filter
        (fun x => !isFlagOf optRepo x)).filter (fun x => !isFlagOf optForce x)) =
      boundBy optIndex items := by
    rw [boundBy_filter _ _ (keep _ _ (by decide)), boundBy_filter _ _ (keep _ _ (by decide)),
      boundBy_filter _ _ (keep _ _ (by decide)), boundBy_filter _ _ (keep _ _ (by decide)),
      boundBy_filter _ _ (keep _ _ (by decide))]
  have hrest : tokensOf ((((((items.filter (fun x => !isFlagOf optHelp x)).filter
        (fun x => !isFlagOf optOutDir x)).filter (fun x => !isFlagOf optFetchDeps x)).filter
        (fun x => !isFlagOf optRepo x)).filter (fun x => !isFlagOf optForce x)).filter
        (fun x => !isFlagOf optIndex x)) = positionals items := by
    simp only [List.filter_filter]
    apply tokensOf_filter_positionals
    · intro t
      rfl
    · intro l vs hm
      obtain ⟨o, ho, hl⟩ := (h.1 (.flag l vs) hm).1
      have hf : isFlagOf o (.flag l vs) = true := by
        simp only [isFlagOf, decide_eq_true_eq]
        exact hl
      simp only [adept.opts, adept.new, List.mem_cons, List.mem_singleton, List.mem_nil_iff,
        or_false] at ho
      rcases ho with e | e | e | e | e | e <;> rw [e] at hf <;>
        simp only [hf, Bool.not_true, Bool.false_and, Bool.and_false]
  simp only [b2, b3, b4, b5, b6, hrest]

/-- C14. End to end: the loop over `opts` on `-r custom.repo -i idx.xml com.example:1.0` binds
the repo option to `custom.repo` and the index option to `idx.xml`, leaves the other four
options as constructed (`.` for out-dir and deps, help and force not set) and leaves the
one token `com.example:1.0`, which the package pattern splits into `com.example` and `1.0`.
In general, on a command line where no option has more than one flag, every flag is
followed by its arguments and no argument or positional token is a label, every option
comes back bound as the command line says and the stream holds the positional tokens in
order. -/
theorem parseAll_end_to_end :
    (parseAll adept.new ["-r".toList, "custom.repo".toList, "-i".toList, "idx.xml".toList,
        "com.example:1.0".toList] =
      .ok { adept.new with
            optRepo := { optRepo with set := true, args := ["custom.repo".toList] },
            optIndex := { optIndex with set := true, args := ["idx.xml".toList] } }
        ["com.example:1.0".toList] ∧
     packagesLoop ["com.example:1.0".toList] adept.new =
        (some { adept.new with packages := [("com.example".toList, "1.0".toList)] },
          { adept.new with packages := [("com.example".toList, "1.0".toList)] })) ∧
    ∀ items : List Item, WellFormed adept.new.opts items →
      parseAll adept.new (tokensOf items) =
        .ok { adept.new with
              optHelp := boundBy optHelp items, optOutDir := boundBy optOutDir items,
              optFetchDeps := boundBy optFetchDeps items, optRepo := boundBy optRepo items,
              optForce := boundBy optForce items, optIndex := boundBy optIndex items }
          (positionals items) := by
  refine ⟨⟨?_, by decide⟩, parseAll_items⟩
  exact parseAll_items
    [.flag "-r".toList ["custom.repo".toList], .flag "-i".toList ["idx.xml".toList],
      .positional "com.example:1.0".toList] (by decide)

/-- Witness of C14: `-d out com.example:1.0 --help`. -/
theorem parseAll_end_to_end_witness :
    parseAll adept.new ["-d".toList, "out".toList, "com.example:1.0".toList, "--help".toList] =
      .ok { adept.new with
            optHelp := { optHelp with set := true, args := [] },
            optOutDir := { optOutDir with set := true, args := ["out".toList] } }
        ["com.example:1.0".toList] :=
  parseAll_end_to_end.2
    [.flag "-d".toList ["out".toList], .positional "com.example:1.0".toList,
      .flag "--help".toList []] (by decide)

/-! ## Indentation of the wrapped text -/

theorem splitLines_ne_nil (s : List Char) : splitLines s ≠ [] := by
  cases s with
  | nil => simp [splitLines]
  | cons c cs =>
    rw [splitLines]
    split_ifs <;> simp

theorem splitLines_plain (l : List Char) (h : '\n' ∉ l) : splitLines l = [l] := by
  induction l with
  | nil => rfl
  | cons c cs ih =>
    have hc : c ≠ '\n' := fun e => h (e ▸ List.mem_cons_self _ _)
    have hcs : '\n' ∉ cs := fun e => h (List.mem_cons_of_mem _ e)
    simp [splitLines, hc, ih hcs]

theorem splitLines_line (l rest : List Char) (h : '\n' ∉ l) :
    splitLines (l ++ '\n' :: rest) = l :: splitLines rest := by
  induction l with
  | nil => simp [splitLines]
  | cons c cs ih =>
    have hc : c ≠ '\n' := fun e => h (e ▸ List.mem_cons_self _ _)
    have hcs : '\n' ∉ cs := fun e => h (List.mem_cons_of_mem _ e)
    simp [splitLines, hc, ih hcs]

theorem splitLines_joinLines (ended : List (List Char)) (cur : List Char)
    (h1 : ∀ l ∈ ended, '\n' ∉ l) (h2 : '\n' ∉ cur) :
    splitLines (joinLines ended cur) = ended ++ [cur] := by
  induction ended with
  | nil => simpa [joinLines] using splitLines_plain cur h2
  | cons l ls ih =>
    rw [joinLines, splitLines_line l _ (h1 l (List.mem_cons_self _ _)),
      ih (fun z hz => h1 z (List.mem_cons_of_mem _ hz))]
    rfl

theorem joinLines_append (ended : List (List Char)) (cur t : List Char) :
    joinLines ended (cur ++ t) = joinLines ended cur ++ t := by
  induction ended with
  | nil => rfl
  | cons l ls ih => simp [joinLines, ih]

theorem joinLines_snoc (ended : List (List Char)) (cur next : List Char) :
    joinLines (ended ++ [cur]) next = joinLines ended cur ++ '\n' :: next := by
  induction ended with
  | nil => simp [joinLines]
  | cons l ls ih => simp [joinLines, ih]

theorem indent_joinLines (ended : List (List Char)) (cur : List Char) (amount : Int)
    (h0 : 0 ≤ amount) (h1 : amount < 2 ^ 64) :
    (indent (joinLines ended cur) amount).1 =
      joinLines (ended ++ [cur]) (List.replicate amount.toNat ' ') := by
  rw [joinLines_snoc]
  simp [indent, toSizeT_of_nonneg amount h0 h1]

theorem indented_spaces (N W : Nat) (h : N ≤ W) : Indented N W (List.replicate N ' ') := by
  constructor
  · rw [List.take_of_length_le (by simp)]
  · simpa using h

theorem indented_append (N W : Nat) (cur t : List Char) (hN : N ≤ cur.length)
    (h : Indented N W cur) (hfit : cur.length + t.length ≤ W) : Indented N W (cur ++ t) := by
  constructor
  · rw [List.take_append_of_le_length hN]
    exact h.1
  · simpa using hfit

/-- Starting a new line keeps what the word wrap tracks. -/
theorem tracked_indent (N W : Nat) (ended : List (List Char)) (cur : List Char) (col : Int)
    (h : Tracked N W ended cur col) (hNW : N ≤ W) :
    Tracked N W (ended ++ [cur]) (List.replicate N ' ') N := by
  obtain ⟨t1, t2, t3, t4, t5, t6⟩ := h
  refine ⟨?_, ?_, by simp, le_refl _, ?_, fun _ => indented_spaces N W hNW⟩
  · intro l hl
    rcases List.mem_append.mp hl with hl | hl
    · exact t1 l hl
    · simp only [List.mem_singleton] at hl
      subst hl
      exact t2
  · intro hm
    have := List.eq_of_mem_replicate hm
    exact absurd this (by decide)
  · intro l hl
    cases ended with
    | nil => simp at hl
    | cons e es =>
      simp only [List.cons_append, List.tail_cons, List.mem_append, List.mem_singleton] at hl
      rcases hl with hl | hl
      · exact t5 l hl
      · subst hl
        exact t6 (by simp)

/-- Appending text without line break that fits keeps what the word wrap tracks. -/
theorem tracked_append (N W : Nat) (ended : List (List Char)) (cur t : List Char) (col : Int)
    (h : Tracked N W ended cur col) (ht : '\n' ∉ t) (hfit : col + t.length ≤ W) :
    Tracked N W ended (cur ++ t) (col + t.length) := by
  obtain ⟨t1, t2, t3, t4, t5, t6⟩ := h
  refine ⟨t1, ?_, ?_, by omega, t5, fun hne => ?_⟩
  · intro hm
    rcases List.mem_append.mp hm with hm | hm
    · exact t2 hm
    · exact ht hm
  · simp only [List.length_append]
    push_cast
    omega
  · exact indented_append N W cur t (by omega) (t6 hne) (by omega)

/-- The word wrap keeps the lines written so far as `Tracked` says, up to the text it
returns. -/
theorem wrapLoop_tracked (startIndent helpTextIndent wrapLength : Int)
    (h0 : 0 ≤ startIndent) (h1 : 0 ≤ helpTextIndent)
    (h2 : startIndent + helpTextIndent < wrapLength) (hw : wrapLength ≤ 2147483647) :
    ∀ (fuel : Nat) (words : List (List Char)) (ended : List (List Char)) (cur : List Char)
      (col : Int) (s : List Char),
      (∀ wd ∈ words, '\n' ∉ wd) →
      Tracked (startIndent + helpTextIndent).toNat wrapLength.toNat ended cur col →
      wrapLoop startIndent helpTextIndent wrapLength fuel words (joinLines ended cur) col
        = .done s →
      ∃ ended1 cur1 col1, s = joinLines ended1 cur1 ∧
        Tracked (startIndent + helpTextIndent).toNat wrapLength.toNat ended1 cur1 col1 := by
  have hNW : (startIndent + helpTextIndent).toNat ≤ wrapLength.toNat := by omega
  have hN : ((startIndent + helpTextIndent).toNat : Int) = startIndent + helpTextIndent := by
    omega
  intro fuel
  induction fuel with
  | zero =>
    intro words ended cur col s _ htr h
    cases words with
    | nil =>
      simp only [wrapLoop, Outcome.done.injEq] at h
      exact ⟨ended, cur, col, h.symm, htr⟩
    | cons w ws => simp [wrapLoop] at h
  | succ n ih =>
    intro words ended cur col s hwords htr h
    cases words with
    | nil =>
      simp only [wrapLoop, Outcome.done.injEq] at h
      exact ⟨ended, cur, col, h.symm, htr⟩
    | cons w ws =>
      have hw0 : '\n' ∉ w := hwords w (List.mem_cons_self _ _)
      have hcol : 0 ≤ col := by
        obtain ⟨_, _, t3, _⟩ := htr
        omega
      have hind : ∀ (e : List (List Char)) (c : List Char) (k : Int)
          (wds : List (List Char)), (∀ wd ∈ wds, '\n' ∉ wd) →
          Tracked (startIndent + helpTextIndent).toNat wrapLength.toNat e c k →
          wrapLoop startIndent helpTextIndent wrapLength n wds
            (indent (joinLines e c) (startIndent + helpTextIndent)).1
            (indent (joinLines e c) (startIndent + helpTextIndent)).2 = .done s →
          ∃ ended1 cur1 col1, s = joinLines ended1 cur1 ∧
            Tracked (startIndent + helpTextIndent).toNat wrapLength.toNat ended1 cur1 col1 := by
        intro e c k wds hwds hk hrun
        rw [indent_joinLines e c _ (by omega) (by omega)] at hrun
        have h2nd : (indent (joinLines e c) (startIndent + helpTextIndent)).2 =
            ((startIndent + helpTextIndent).toNat : Int) := by
          rw [hN]; rfl
        rw [h2nd] at hrun
        exact ih wds _ _ _ s hwds (tracked_indent _ _ e c k hk hNW) hrun
      rw [wrapLoop] at h
      split_ifs at h with c1 c2 c3
      · exact hind ended cur col _ hwords htr h
      · have hpiece : '\n' ∉ w.take (toSizeT (wrapLength - col)) :=
          fun hm => hw0 (List.mem_of_mem_take hm)
        have hlen : ((w.take (toSizeT (wrapLength - col))).length : Int) ≤ wrapLength - col := by
          rw [toSizeT_of_nonneg _ (by omega) (by omega), List.length_take]
          omega
        have happ := tracked_append _ _ ended cur _ col htr hpiece (by omega)
        rw [← joinLines_append] at h
        refine hind ended _ _ _ ?_ happ h
        intro wd hwd
        rcases List.mem_cons.mp hwd with e | e
        · subst e
          exact fun hm => hw0 (List.mem_of_mem_drop hm)
        · exact hwords wd (List.mem_cons_of_mem _ e)
      · rw [toSizeT_of_nonneg _ (by omega) (by omega)] at c3
        have hsp : '\n' ∉ w ++ [' '] := by
          intro hm
          rcases List.mem_append.mp hm with hm | hm
          · exact hw0 hm
          · simp at hm
        have happ := tracked_append _ _ ended cur (w ++ [' ']) col htr hsp
          (by simp only [List.length_append, List.length_singleton]; omega)
        rw [List.append_assoc, ← joinLines_append] at h
        have e : col + (w.length : Int) + 1 = col + ((w ++ [' ']).length : Int) := by
          simp only [List.length_append, List.length_singleton]
          push_cast
          ring
        rw [e] at h
        exact ih ws _ _ _ s (fun wd hwd => hwords wd (List.mem_cons_of_mem _ hwd)) happ h
      · exact hind ended cur col _ hwords htr h

theorem skipSpace_head (input : List Char) (d : Char) (ds : List Char)
    (h : skipSpace input = some (d :: ds)) : isspace d = false := by
  induction input with
  | nil => simp [skipSpace] at h
  | cons c cs ih =>
    rw [skipSpace] at h
    split_ifs at h with hc
    · exact ih h
    · simp only [Option.some.injEq, List.cons.injEq] at h
      rw [← h.1]
      simpa using hc

theorem scanWord_word (input : List Char) : ∀ c ∈ (scanWord input).1, isspace c = false := by
  induction input with
  | nil => simp [scanWord]
  | cons c cs ih =>
    intro x hx
    rw [scanWord] at hx
    split_ifs at hx with hc
    · simp at hx
    · simp only [List.mem_cons] at hx
      rcases hx with e | e
      · rw [e]; simpa using hc
      · exact ih x e

/-- The words `findWords` appends hold no whitespace. -/
theorem findWordsLoop_words (fuel : Nat) :
    ∀ (input : List Char) (words : List (List Char)) (nWords k : Nat)
      (ws : List (List Char)),
      findWordsLoop fuel input words nWords = some (k, ws) →
      (∀ wd ∈ words, ∀ c ∈ wd, isspace c = false) →
      ∀ wd ∈ ws, ∀ c ∈ wd, isspace c = false := by
  induction fuel with
  | zero =>
    intro input words nWords k ws h hw
    cases input with
    | nil =>
      simp only [findWordsLoop, Option.some.injEq, Prod.mk.injEq] at h
      rw [← h.2]
      exact hw
    | cons c cs => simp [findWordsLoop] at h
  | succ n ih =>
    intro input words nWords k ws h hw
    cases input with
    | nil =>
      simp only [findWordsLoop, Option.some.injEq, Prod.mk.injEq] at h
      rw [← h.2]
      exact hw
    | cons c cs =>
      rw [findWordsLoop] at h
      split at h
      · simp only [Option.some.injEq, Prod.mk.injEq] at h
        rw [← h.2]
        exact hw
      · simp only [Option.some.injEq, Prod.mk.injEq] at h
        rw [← h.2]
        exact hw
      · rename_i d ds hskip
        have hd : isspace d = false := skipSpace_head _ d ds hskip
        have hnew : ∀ wd ∈ words ++ [d :: (scanWord ds).1], ∀ c ∈ wd, isspace c = false := by
          intro wd hwd
          rcases List.mem_append.mp hwd with e | e
          · exact hw wd e
          · simp only [List.mem_singleton] at e
            subst e
            intro x hx
            rcases List.mem_cons.mp hx with e | e
            · rw [e]; exact hd
            · exact scanWord_word ds x e
        split at h
        · simp only [Option.some.injEq, Prod.mk.injEq] at h
          rw [← h.2]
          exact hnew
        · exact ih _ _ _ k ws h hnew

theorem replaceBody_again_chars (replacements : List (List Char)) (nDigits : Nat)
    (w w1 : List Char) (h : replaceBody replacements nDigits w = .again w1) :
    ∀ c ∈ w1, c ∈ w ∨ ∃ r ∈ replacements, c ∈ r := by
  intro c hc
  unfold replaceBody at h
  split at h
  · simp at h
  · rename_i index _
    simp only at h
    split_ifs at h with c1 c2
    · simp only [WordStep.again.injEq] at h
      rw [← h] at hc
      rcases List.mem_append.mp hc with e | e
      · exact Or.inl (List.mem_of_mem_take e)
      · exact Or.inl (List.mem_of_mem_drop e)
    · simp only [WordStep.again.injEq] at h
      rw [← h] at hc
      rcases List.mem_append.mp hc with e | e
      · exact Or.inl (List.mem_of_mem_take e)
      · exact Or.inl (List.mem_of_mem_drop e)
    · split at h
      · simp at h
      · rename_i r hr
        simp only [WordStep.again.injEq] at h
        rw [← h] at hc
        rcases List.mem_append.mp hc with e | e
        · rcases List.mem_append.mp e with e | e
          · exact Or.inl (List.mem_of_mem_take e)
          · exact Or.inr ⟨r, List.get?_mem hr, e⟩
        · exact Or.inl (List.mem_of_mem_drop e)

/-- Words and values without line break give rendered words without line break. -/
theorem replaceLoop_no_break (replacements : List (List Char)) (nDigits : Nat)
    (hr : ∀ r ∈ replacements, '\n' ∉ r) :
    ∀ (fuel : Nat) (processed words out : List (List Char)),
      replaceLoop replacements nDigits fuel processed words = .done out →
      (∀ wd ∈ processed, '\n' ∉ wd) → (∀ wd ∈ words, '\n' ∉ wd) →
      ∀ wd ∈ out, '\n' ∉ wd := by
  intro fuel
  induction fuel with
  | zero =>
    intro processed words out h hp hw
    cases words with
    | nil =>
      simp only [replaceLoop, Outcome.done.injEq] at h
      rw [← h]; exact hp
    | cons w ws => simp [replaceLoop] at h
  | succ n ih =>
    intro processed words out h hp hw
    cases words with
    | nil =>
      simp only [replaceLoop, Outcome.done.injEq] at h
      rw [← h]; exact hp
    | cons w ws =>
      rw [replaceLoop_succ] at h
      cases hb : replaceBody replacements nDigits w with
      | next =>
        rw [hb] at h
        refine ih _ _ out h ?_ (fun wd hwd => hw wd (List.mem_cons_of_mem _ hwd))
        intro wd hwd
        rcases List.mem_append.mp hwd with e | e
        · exact hp wd e
        · simp only [List.mem_singleton] at e
          subst e
          exact hw _ (List.mem_cons_self _ _)
      | again w1 =>
        rw [hb] at h
        refine ih _ _ out h hp ?_
        intro wd hwd
        rcases List.mem_cons.mp hwd with e | e
        · subst e
          intro hm
          rcases replaceBody_again_chars _ _ w _ hb _ hm with e | ⟨r, hrm, e⟩
          · exact hw w (List.mem_cons_self _ _) e
          · exact hr r hrm e
        · exact hw wd (List.mem_cons_of_mem _ e)
      | pastEnd => rw [hb] at h; simp at h

theorem preprocessHelpText_no_break (fuel : Nat) (opt : CmdLineOption)
    (words : List (List Char)) (hv : ∀ v ∈ opt.args, '\n' ∉ v)
    (h : preprocessHelpText fuel opt = .done words) : ∀ wd ∈ words, '\n' ∉ wd := by
  unfold preprocessHelpText at h
  split at h
  · simp at h
  · rename_i k ws hf
    have hws : ∀ wd ∈ ws, '\n' ∉ wd := by
      intro wd hwd hm
      have := findWordsLoop_words _ _ _ _ k ws hf (by simp) wd hwd _ hm
      revert this
      decide
    unfold replacePlaceholders at h
    split_ifs at h
    · simp only [Outcome.done.injEq] at h
      rw [← h]; exact hws
    · exact replaceLoop_no_break _ _ hv fuel [] ws words h (by simp) hws

theorem foldl_labels_no_break (labels : List (List Char)) (hl : ∀ a ∈ labels, '\n' ∉ a) :
    ∀ formatted : List Char, '\n' ∉ formatted →
      '\n' ∉ labels.foldl (fun f label => f ++ (" <".toList ++ label ++ ">".toList)) formatted := by
  induction labels with
  | nil => intro f hf; simpa using hf
  | cons a as ih =>
    intro f hf
    rw [List.foldl_cons]
    apply ih (fun z hz => hl z (List.mem_cons_of_mem _ hz))
    have ha := hl a (List.mem_cons_self _ _)
    simp only [List.mem_append, not_or]
    exact ⟨hf, ⟨by decide, ha⟩, by decide⟩

theorem replicate_no_break (n : Nat) : '\n' ∉ List.replicate n ' ' := by
  intro hm
  exact absurd (List.eq_of_mem_replicate hm) (by decide)

theorem helpHeader_no_break (opt : CmdLineOption) (startIndent : Int)
    (hs : '\n' ∉ opt.shortLabel) (hl : '\n' ∉ opt.longLabel)
    (ha : ∀ a ∈ opt.argLabels, '\n' ∉ a) : '\n' ∉ helpHeader opt startIndent := by
  unfold helpHeader
  simp only [List.mem_append, not_or]
  refine ⟨?_, by decide⟩
  apply foldl_labels_no_break _ ha
  have hr := replicate_no_break (toSizeT startIndent)
  split_ifs
  · simp only [List.mem_append, not_or]
    exact ⟨⟨hr, hs⟩, by decide, hl⟩
  · simp only [List.mem_append, not_or]
    exact ⟨hr, hs⟩
  · simp only [List.mem_append, not_or]
    exact ⟨hr, hl⟩
  · exact hr

theorem padHeader_no_break (formatted : List Char) (startIndent helpTextIndent : Int)
    (h : '\n' ∉ formatted) : '\n' ∉ padHeader formatted startIndent helpTextIndent := by
  unfold padHeader
  split_ifs
  · simp only [List.mem_append, not_or]
    exact ⟨h, replicate_no_break _⟩
  · exact h

/-- C18. Preserved indentation: for an option whose labels, argument labels and values hold
no line break, `startIndent >= 0`, `helpTextIndent >= 0` and
`wrapLength > startIndent + helpTextIndent`, every line after the first of a text returned
by `getFormattedHelpText` begins with `startIndent + helpTextIndent` spaces and is at most
`wrapLength` long; and the loop ends in a state as `Tracked` describes, the tracked column
equal to the length of the last line and not below `startIndent + helpTextIndent`. -/
theorem render_indentation (fuel : Nat) (opt : CmdLineOption)
    (startIndent helpTextIndent wrapLength : Int) (s : List Char)
    (h0 : 0 ≤ startIndent) (h1 : 0 ≤ helpTextIndent)
    (h2 : startIndent + helpTextIndent < wrapLength) (hw : wrapLength ≤ 2147483647)
    (hs : '\n' ∉ opt.shortLabel) (hl : '\n' ∉ opt.longLabel)
    (ha : ∀ a ∈ opt.argLabels, '\n' ∉ a) (hv : ∀ v ∈ opt.args, '\n' ∉ v)
    (h : getFormattedHelpText fuel opt startIndent helpTextIndent wrapLength = .done s) :
    (∀ line ∈ (splitLines s).tail,
      line.take (startIndent + helpTextIndent).toNat =
        List.replicate (startIndent + helpTextIndent).toNat ' ' ∧
      (line.length : Int) ≤ wrapLength) ∧
    ∃ (ended : List (List Char)) (cur : List Char) (col : Int),
      s = joinLines ended cur ∧
      Tracked (startIndent + helpTextIndent).toNat wrapLength.toNat ended cur col := by
  unfold getFormattedHelpText at h
  cases hp : preprocessHelpText fuel opt with
  | noFuel => rw [hp] at h; simp [Outcome.bind] at h
  | outOfRange => rw [hp] at h; simp [Outcome.bind] at h
  | done words =>
    rw [hp] at h
    simp only [Outcome.bind] at h
    have hwords := preprocessHelpText_no_break fuel opt words hv hp
    have hhead : '\n' ∉ padHeader (helpHeader opt startIndent) startIndent helpTextIndent :=
      padHeader_no_break _ _ _ (helpHeader_no_break opt startIndent hs hl ha)
    have hlen := padHeader_length (helpHeader opt startIndent) startIndent helpTextIndent
      (by omega) (by omega)
    have hstart : Tracked (startIndent + helpTextIndent).toNat wrapLength.toNat []
        (padHeader (helpHeader opt startIndent) startIndent helpTextIndent)
        ((padHeader (helpHeader opt startIndent) startIndent helpTextIndent).length : Int) := by
      refine ⟨by simp, hhead, rfl, by omega, by simp, fun hne => absurd rfl hne⟩
    obtain ⟨ended, cur, col, hjoin, t1, t2, t3, t4, t5, t6⟩ :=
      wrapLoop_tracked startIndent helpTextIndent wrapLength h0 h1 h2 hw fuel words [] _ _ s
        hwords hstart h
    refine ⟨?_, ended, cur, col, hjoin, t1, t2, t3, t4, t5, t6⟩
    rw [hjoin, splitLines_joinLines ended cur t1 t2]
    intro line hline
    have hgood : Indented (startIndent + helpTextIndent).toNat wrapLength.toNat line := by
      cases ended with
      | nil => simp at hline
      | cons e es =>
        simp only [List.cons_append, List.tail_cons, List.mem_append, List.mem_singleton]
          at hline
        rcases hline with hline | hline
        · exact t5 line hline
        · subst hline
          exact t6 (by simp)
    refine ⟨hgood.1, ?_⟩
    have := hgood.2
    omega

/-- Witness of C18: the option `-r` rendered as `adept::help` does; the second line begins
with 25 spaces. -/
theorem render_indentation_witness :
    ("                         Current default: maven.google.com ").toList.take
        ((0 : Int) + 25).toNat = List.replicate ((0 : Int) + 25).toNat ' ' ∧
    ((("                         Current default: maven.google.com ").toList.length : Nat) : Int)
      ≤ 100 :=
  (render_indentation 20 optRepo 0 25 100
    ("-r, --repo <url>         Specifies the url of the repository to download the libraries from. \n                         Current default: maven.google.com ").toList
    (by decide) (by decide) (by decide) (by decide)
    (by decide) (by decide) (by decide) (by decide) (by decide)).1
    ("                         Current default: maven.google.com ").toList (by decide)
/-! ## The tokenizer -/

theorem maximalRuns_nil : maximalRuns [] = [] := rfl

theorem maximalRuns_cons_space (c : Char) (cs : List Char) (h : isspace c = true) :
    maximalRuns (c :: cs) = maximalRuns cs := by
  simp [maximalRuns, List.splitOnP_cons, h]

theorem maximalRuns_spaces (sp rest : List Char) (h : ∀ c ∈ sp, isspace c = true) :
    maximalRuns (sp ++ rest) = maximalRuns rest := by
  induction sp with
  | nil => rfl
  | cons c cs ih =>
    rw [List.cons_append, maximalRuns_cons_space _ _ (h c (List.mem_cons_self _ _)),
      ih (fun z hz => h z (List.mem_cons_of_mem _ hz))]

theorem maximalRuns_word (w : List Char) (hne : w ≠ []) (h : ∀ c ∈ w, isspace c = false) :
    maximalRuns w = [w] := by
  unfold maximalRuns
  rw [List.splitOnP_eq_single isspace w (fun x hx => by simp [h x hx])]
  cases w with
  | nil => exact absurd rfl hne
  | cons a as => rfl

theorem maximalRuns_word_space (w : List Char) (e : Char) (es : List Char) (hne : w ≠ [])
    (h : ∀ c ∈ w, isspace c = false) (he : isspace e = true) :
    maximalRuns (w ++ e :: es) = w :: maximalRuns es := by
  unfold maximalRuns
  rw [List.splitOnP_first isspace w (fun x hx => by simp [h x hx]) e he es]
  cases w with
  | nil => exact absurd rfl hne
  | cons a as => rfl

theorem skipSpace_none (input : List Char) (h : skipSpace input = none) :
    ∀ c ∈ input, isspace c = true := by
  induction input with
  | nil => simp
  | cons c cs ih =>
    rw [skipSpace] at h
    split_ifs at h with hc
    intro x hx
    rcases List.mem_cons.mp hx with e | e
    · rw [e]; exact hc
    · exact ih h x e

theorem skipSpace_some (input rest : List Char) (h : skipSpace input = some rest) :
    ∃ sp, input = sp ++ rest ∧ ∀ c ∈ sp, isspace c = true := by
  induction input with
  | nil => simp [skipSpace] at h
  | cons c cs ih =>
    rw [skipSpace] at h
    split_ifs at h with hc
    · obtain ⟨sp, h1, h2⟩ := ih h
      refine ⟨c :: sp, by rw [h1]; rfl, ?_⟩
      intro x hx
      rcases List.mem_cons.mp hx with e | e
      · rw [e]; exact hc
      · exact h2 x e
    · simp only [Option.some.injEq] at h
      exact ⟨[], by simpa using h, by simp⟩

theorem skipSpace_ne_nil (input : List Char) : skipSpace input ≠ some [] := by
  induction input with
  | nil => simp [skipSpace]
  | cons c cs ih =>
    rw [skipSpace]
    split_ifs
    · exact ih
    · simp

theorem scanWord_append (input : List Char) :
    input = (scanWord input).1 ++ (scanWord input).2 := by
  induction input with
  | nil => rfl
  | cons c cs ih =>
    rw [scanWord]
    split_ifs
    · rfl
    · simp only [List.cons_append, List.cons.injEq, true_and]
      exact ih

theorem scanWord_rest (input : List Char) (e : Char) (es : List Char)
    (h : (scanWord input).2 = e :: es) : isspace e = true := by
  induction input with
  | nil => simp [scanWord] at h
  | cons c cs ih =>
    rw [scanWord] at h
    split_ifs at h with hc
    · simp only [List.cons.injEq] at h
      rw [← h.1]; exact hc
    · exact ih h

/-- The loop of `findWords` with fuel for every character: it ends, with the maximal runs of
the input appended and counted. -/
theorem findWordsLoop_runs (fuel : Nat) :
    ∀ (input : List Char) (words : List (List Char)) (nWords : Nat), input.length ≤ fuel →
      findWordsLoop fuel input words nWords =
        some (nWords + (maximalRuns input).length, words ++ maximalRuns input) := by
  induction fuel with
  | zero =>
    intro input words nWords hlen
    cases input with
    | nil => simp [findWordsLoop, maximalRuns_nil]
    | cons c cs => simp at hlen
  | succ n ih =>
    intro input words nWords hlen
    cases input with
    | nil => simp [findWordsLoop, maximalRuns_nil]
    | cons c cs =>
      rw [findWordsLoop]
      split
      · rename_i hskip
        have hall := skipSpace_none _ hskip
        have := maximalRuns_spaces (c :: cs) [] hall
        rw [List.append_nil, maximalRuns_nil] at this
        simp [this]
      · rename_i hskip
        exact absurd hskip (skipSpace_ne_nil _)
      · rename_i d ds hskip
        obtain ⟨sp, hsp, hspace⟩ := skipSpace_some _ _ hskip
        have hd : isspace d = false := skipSpace_head _ d ds hskip
        have hword : ∀ x ∈ d :: (scanWord ds).1, isspace x = false := by
          intro x hx
          rcases List.mem_cons.mp hx with e | e
          · rw [e]; exact hd
          · exact scanWord_word ds x e
        have hds := scanWord_append ds
        have hrestSpace := scanWord_rest ds
        rw [hsp, maximalRuns_spaces sp _ hspace]
        generalize (scanWord ds).1 = w at hword hds hrestSpace ⊢
        generalize (scanWord ds).2 = rest at hds hrestSpace ⊢
        cases rest with
        | nil =>
          rw [List.append_nil] at hds
          rw [hds, maximalRuns_word _ (by simp) hword]
          simp
        | cons e es =>
          have he : isspace e = true := hrestSpace e es rfl
          have hlen2 : (e :: es).length ≤ n := by
            have h1 := congrArg List.length hsp
            have h2 := congrArg List.length hds
            simp only [List.length_append, List.length_cons] at h1 h2 hlen ⊢
            omega
          simp only
          rw [ih (e :: es) _ _ hlen2, maximalRuns_cons_space e es he, hds,
            ← List.cons_append, maximalRuns_word_space _ e es (by simp) hword he]
          simp only [List.length_cons, List.append_assoc, List.singleton_append,
            Option.some.injEq, Prod.mk.injEq, and_true]
          omega

theorem maximalRuns_nonempty (input : List Char) : ∀ w ∈ maximalRuns input, w ≠ [] := by
  intro w hw
  unfold maximalRuns at hw
  have := (List.mem_filter.mp hw).2
  intro h
  rw [h] at this
  simp at this

theorem flatten_splitOnP (input : List Char) :
    (input.splitOnP isspace).flatten = input.filter (fun c => !isspace c) := by
  induction input with
  | nil => rfl
  | cons c cs ih =>
    rw [List.splitOnP_cons]
    by_cases hc : isspace c = true
    · simp only [hc, if_true, List.flatten_cons, List.nil_append, ih]
      rw [List.filter_cons_of_neg (by simp [hc])]
    · have hc1 : isspace c = false := by simpa using hc
      simp only [hc1, Bool.false_eq_true, if_false]
      rw [List.filter_cons_of_pos (by simp [hc1]), ← ih]
      cases hs : List.splitOnP isspace cs with
      | nil => exact absurd hs (List.splitOnP_ne_nil _ _)
      | cons l ls => rfl

theorem maximalRuns_flatten (input : List Char) :
    (maximalRuns input).flatten = input.filter (fun c => !isspace c) := by
  unfold maximalRuns
  rw [List.flatten_filter_not_isEmpty, flatten_splitOnP]

/-- A text is whitespace only, or it is whitespace, then a word, then nothing or whitespace
and more text. -/
theorem text_shape (input : List Char) :
    (∀ c ∈ input, isspace c = true) ∨
    ∃ sp w rest, input = sp ++ w ++ rest ∧ (∀ c ∈ sp, isspace c = true) ∧ w ≠ [] ∧
      (∀ c ∈ w, isspace c = false) ∧
      (rest = [] ∨ ∃ e es, rest = e :: es ∧ isspace e = true) := by
  cases hskip : skipSpace input with
  | none => exact Or.inl (skipSpace_none input hskip)
  | some r =>
    right
    cases r with
    | nil => exact absurd hskip (skipSpace_ne_nil input)
    | cons d ds =>
      obtain ⟨sp, hsp, hspace⟩ := skipSpace_some _ _ hskip
      have hd : isspace d = false := skipSpace_head _ d ds hskip
      refine ⟨sp, d :: (scanWord ds).1, (scanWord ds).2, ?_, hspace, by simp, ?_, ?_⟩
      · rw [hsp, List.append_assoc, List.cons_append, ← scanWord_append ds]
      · intro x hx
        rcases List.mem_cons.mp hx with e | e
        · rw [e]; exact hd
        · exact scanWord_word ds x e
      · cases hr : (scanWord ds).2 with
        | nil => exact Or.inl rfl
        | cons e es => exact Or.inr ⟨e, es, rfl, scanWord_rest ds e es hr⟩

/-- Every maximal run stands in the text between whitespace or the ends of the text. -/
theorem maximalRuns_bounded (k : Nat) :
    ∀ (input : List Char), input.length ≤ k → ∀ w ∈ maximalRuns input,
      ∃ pre post, input = pre ++ w ++ post ∧
        (pre = [] ∨ ∃ p c, pre = p ++ [c] ∧ isspace c = true) ∧
        (post = [] ∨ ∃ c q, post = c :: q ∧ isspace c = true) := by
  induction k with
  | zero =>
    intro input hlen w hw
    have : input = [] := List.length_eq_zero.mp (by omega)
    rw [this, maximalRuns_nil] at hw
    simp at hw
  | succ n ih =>
    intro input hlen w hw
    rcases text_shape input with hall | ⟨sp, w0, rest, hshape, hspace, hne, hword, hrest⟩
    · have := maximalRuns_spaces input [] hall
      rw [List.append_nil, maximalRuns_nil] at this
      rw [this] at hw
      simp at hw
    · have hsp : sp = [] ∨ ∃ p c, sp = p ++ [c] ∧ isspace c = true := by
        rcases List.eq_nil_or_concat sp with e | ⟨p, c, e⟩
        · exact Or.inl e
        · rw [List.concat_eq_append] at e
          exact Or.inr ⟨p, c, e, hspace c (by rw [e]; simp)⟩
      rcases hrest with hr | ⟨e, es, hr, he⟩
      · subst hr
        rw [hshape, List.append_nil, maximalRuns_spaces sp _ hspace,
          maximalRuns_word w0 hne hword] at hw
        simp only [List.mem_singleton] at hw
        subst hw
        exact ⟨sp, [], hshape, hsp, Or.inl rfl⟩
      · subst hr
        rw [hshape, List.append_assoc, maximalRuns_spaces sp _ hspace,
          maximalRuns_word_space w0 e es hne hword he] at hw
        rcases List.mem_cons.mp hw with hw | hw
        · subst hw
          exact ⟨sp, e :: es, hshape, hsp, Or.inr ⟨e, es, rfl, he⟩⟩
        · have hlen2 : es.length ≤ n := by
            have h1 := congrArg List.length hshape
            have h2 := List.length_pos.mpr hne
            simp only [List.length_append, List.length_cons] at h1
            omega
          obtain ⟨pre, post, h1, h2, h3⟩ := ih es hlen2 w hw
          refine ⟨sp ++ w0 ++ e :: pre, post, ?_, ?_, h3⟩
          · rw [hshape, h1]
            simp
          · right
            rcases h2 with h2 | ⟨p, c, h2, hc⟩
            · subst h2
              exact ⟨sp ++ w0, e, by simp, he⟩
            · subst h2
              exact ⟨sp ++ w0 ++ e :: p, c, by simp, hc⟩

/-- C21. Tokenizer: `findWords` returns, with the maximal runs of characters that are no
whitespace appended to the word list in order of appearance and their number as the count.
Every appended word is non-empty, holds no whitespace and stands in the input between
whitespace or the ends of the input; the appended words put together are the input without
its whitespace; for an input that is empty or all whitespace nothing is appended and the
count is 0. -/
theorem findWords_tokenizer (input : List Char) (words : List (List Char)) :
    findWords input words = some ((maximalRuns input).length, words ++ maximalRuns input) ∧
    (∀ w ∈ maximalRuns input, w ≠ [] ∧ (∀ c ∈ w, isspace c = false) ∧
      ∃ pre post, input = pre ++ w ++ post ∧
        (pre = [] ∨ ∃ p c, pre = p ++ [c] ∧ isspace c = true) ∧
        (post = [] ∨ ∃ c q, post = c :: q ∧ isspace c = true)) ∧
    (maximalRuns input).flatten = input.filter (fun c => !isspace c) ∧
    ((∀ c ∈ input, isspace c = true) → findWords input words = some (0, words)) := by
  have hrun : ∀ ws, findWords input ws =
      some ((maximalRuns input).length, ws ++ maximalRuns input) := by
    intro ws
    unfold findWords
    rw [findWordsLoop_runs input.length input ws 0 (le_refl _)]
    simp
  refine ⟨hrun words, ?_, maximalRuns_flatten input, ?_⟩
  · intro w hw
    refine ⟨maximalRuns_nonempty input w hw, ?_, maximalRuns_bounded _ input (le_refl _) w hw⟩
    have h := hrun []
    unfold findWords at h
    exact findWordsLoop_words _ _ _ _ _ _ h (by simp) w (by simpa using hw)
  · intro hall
    have := maximalRuns_spaces input [] hall
    rw [List.append_nil, maximalRuns_nil] at this
    rw [hrun words, this]
    simp

/-- An instance of C21: two spaces, `ab`, a tab and a space, `c`, a line break. -/
theorem findWords_tokenizer_witness :
    findWords "  ab\t c\n".toList ["x".toList] =
      some (2, ["x".toList, "ab".toList, "c".toList]) ∧
    maximalRuns "  ab\t c\n".toList = ["ab".toList, "c".toList] := by
  have h := (findWords_tokenizer "  ab\t c\n".toList ["x".toList]).1
  have hr : maximalRuns "  ab\t c\n".toList = ["ab".toList, "c".toList] := by
    simp [maximalRuns, List.splitOnP_cons, isspace]
  rw [hr] at h
  exact ⟨h, hr⟩
/-! ## Lines closed by the cut of a long word -/

/-- The record changes nothing: without it, `wrapLoopLog` is `wrapLoop`. -/
theorem wrapLoopLog_text (startIndent helpTextIndent wrapLength : Int) :
    ∀ (fuel : Nat) (words : List (List Char)) (formatted : List Char) (col : Int)
      (splits : List (List Char)),
      (wrapLoopLog startIndent helpTextIndent wrapLength fuel words formatted col splits).bind
          (fun p => .done p.1) =
        wrapLoop startIndent helpTextIndent wrapLength fuel words formatted col := by
  intro fuel
  induction fuel with
  | zero =>
    intro words formatted col splits
    cases words <;> simp [wrapLoopLog, wrapLoop, Outcome.bind]
  | succ n ih =>
    intro words formatted col splits
    cases words with
    | nil => simp [wrapLoopLog, wrapLoop, Outcome.bind]
    | cons w ws =>
      rw [wrapLoopLog, wrapLoop]
      split_ifs <;> exact ih _ _ _ _

theorem joinLines_cut (pre : List (List Char)) (line : List Char) (post : List (List Char))
    (cur : List Char) :
    joinLines (pre ++ line :: post) cur = joinLines pre line ++ '\n' :: joinLines post cur := by
  induction pre with
  | nil => simp [joinLines]
  | cons l ls ih => simp [joinLines, ih]

theorem closedFull_snoc (W : Nat) (ended : List (List Char)) (cur t : List Char)
    (h : ClosedFull W ended t) : ClosedFull W (ended ++ [cur]) t := by
  obtain ⟨pre, line, post, e1, e2, e3⟩ := h
  exact ⟨pre, line, post ++ [cur], by rw [e1]; simp, e2, e3⟩

/-- The word wrap keeps what `Tracked` says, and every text in the record ends with a line
that is exactly `wrapLength` long and stays a line of the text returned. -/
theorem wrapLoopLog_tracked (startIndent helpTextIndent wrapLength : Int)
    (h0 : 0 ≤ startIndent) (h1 : 0 ≤ helpTextIndent)
    (h2 : startIndent + helpTextIndent < wrapLength) (hw : wrapLength ≤ 2147483647) :
    ∀ (fuel : Nat) (words : List (List Char)) (ended : List (List Char)) (cur : List Char)
      (col : Int) (splits : List (List Char)) (s : List Char) (out : List (List Char)),
      (∀ wd ∈ words, '\n' ∉ wd) →
      Tracked (startIndent + helpTextIndent).toNat wrapLength.toNat ended cur col →
      (∀ t ∈ splits, ClosedFull wrapLength.toNat ended t) →
      wrapLoopLog startIndent helpTextIndent wrapLength fuel words (joinLines ended cur) col
        splits = .done (s, out) →
      ∃ ended1 cur1 col1, s = joinLines ended1 cur1 ∧
        Tracked (startIndent + helpTextIndent).toNat wrapLength.toNat ended1 cur1 col1 ∧
        ∀ t ∈ out, ClosedFull wrapLength.toNat ended1 t := by
  have hNW : (startIndent + helpTextIndent).toNat ≤ wrapLength.toNat := by omega
  have hN : ((startIndent + helpTextIndent).toNat : Int) = startIndent + helpTextIndent := by
    omega
  intro fuel
  induction fuel with
  | zero =>
    intro words ended cur col splits s out _ htr hsp h
    cases words with
    | nil =>
      simp only [wrapLoopLog, Outcome.done.injEq, Prod.mk.injEq] at h
      obtain ⟨e1, e2⟩ := h
      subst e1 e2
      exact ⟨ended, cur, col, rfl, htr, hsp⟩
    | cons w ws => simp [wrapLoopLog] at h
  | succ n ih =>
    intro words ended cur col splits s out hwords htr hsp h
    cases words with
    | nil =>
      simp only [wrapLoopLog, Outcome.done.injEq, Prod.mk.injEq] at h
      obtain ⟨e1, e2⟩ := h
      subst e1 e2
      exact ⟨ended, cur, col, rfl, htr, hsp⟩
    | cons w ws =>
      have hw0 : '\n' ∉ w := hwords w (List.mem_cons_self _ _)
      have hcol : 0 ≤ col := by
        obtain ⟨_, _, t3, _⟩ := htr
        omega
      have hind : ∀ (e : List (List Char)) (c : List Char) (k : Int)
          (wds : List (List Char)) (sp : List (List Char)), (∀ wd ∈ wds, '\n' ∉ wd) →
          Tracked (startIndent + helpTextIndent).toNat wrapLength.toNat e c k →
          (∀ t ∈ sp, ClosedFull wrapLength.toNat (e ++ [c]) t) →
          wrapLoopLog startIndent helpTextIndent wrapLength n wds
            (indent (joinLines e c) (startIndent + helpTextIndent)).1
            (indent (joinLines e c) (startIndent + helpTextIndent)).2 sp = .done (s, out) →
          ∃ ended1 cur1 col1, s = joinLines ended1 cur1 ∧
            Tracked (startIndent + helpTextIndent).toNat wrapLength.toNat ended1 cur1 col1 ∧
            ∀ t ∈ out, ClosedFull wrapLength.toNat ended1 t := by
        intro e c k wds sp hwds hk hcl hrun
        rw [indent_joinLines e c _ (by omega) (by omega)] at hrun
        have h2nd : (indent (joinLines e c) (startIndent + helpTextIndent)).2 =
            ((startIndent + helpTextIndent).toNat : Int) := by
          rw [hN]; rfl
        rw [h2nd] at hrun
        exact ih wds _ _ _ sp s out hwds (tracked_indent _ _ e c k hk hNW) hcl hrun
      have hold : ∀ (c : List Char), ∀ t ∈ splits, ClosedFull wrapLength.toNat (ended ++ [c]) t :=
        fun c t ht => closedFull_snoc _ ended c t (hsp t ht)
      rw [wrapLoopLog] at h
      split_ifs at h with c1 c2 c3
      · exact hind ended cur col _ _ hwords htr (hold cur) h
      · have hpiece : '\n' ∉ w.take (toSizeT (wrapLength - col)) :=
          fun hm => hw0 (List.mem_of_mem_take hm)
        have hlen : ((w.take (toSizeT (wrapLength - col))).length : Int) = wrapLength - col := by
          rw [toSizeT_of_nonneg _ (by omega) (by omega)] at c2 ⊢
          rw [List.length_take]
          obtain ⟨_, _, _, t4, _⟩ := htr
          omega
        have happ := tracked_append _ _ ended cur _ col htr hpiece (by omega)
        rw [← joinLines_append] at h
        refine hind ended _ _ _ _ ?_ happ ?_ h
        · intro wd hwd
          rcases List.mem_cons.mp hwd with e | e
          · subst e
            exact fun hm => hw0 (List.mem_of_mem_drop hm)
          · exact hwords wd (List.mem_cons_of_mem _ e)
        · intro t ht
          rcases List.mem_append.mp ht with ht | ht
          · exact hold _ t ht
          · simp only [List.mem_singleton] at ht
            subst ht
            refine ⟨ended, cur ++ w.take (toSizeT (wrapLength - col)), [], rfl, rfl, ?_⟩
            obtain ⟨_, _, t3, _⟩ := htr
            simp only [List.length_append]
            omega
      · rw [toSizeT_of_nonneg _ (by omega) (by omega)] at c3
        have hsp1 : '\n' ∉ w ++ [' '] := by
          intro hm
          rcases List.mem_append.mp hm with hm | hm
          · exact hw0 hm
          · simp at hm
        have happ := tracked_append _ _ ended cur (w ++ [' ']) col htr hsp1
          (by simp only [List.length_append, List.length_singleton]; omega)
        rw [List.append_assoc, ← joinLines_append] at h
        have e : col + (w.length : Int) + 1 = col + ((w ++ [' ']).length : Int) := by
          simp only [List.length_append, List.length_singleton]
          push_cast
          ring
        rw [e] at h
        exact ih ws _ _ _ _ s out (fun wd hwd => hwords wd (List.mem_cons_of_mem _ hwd)) happ
          hsp h
      · exact hind ended cur col _ _ hwords htr (hold cur) h

theorem closedFull_line (W : Nat) (ended : List (List Char)) (cur t : List Char)
    (hended : ∀ l ∈ ended, '\n' ∉ l) (h : ClosedFull W ended t) :
    (∃ rest, joinLines ended cur = t ++ '\n' :: rest) ∧
    ∃ line, (splitLines t).getLast? = some line ∧ line.length = W := by
  obtain ⟨pre, line, post, e1, e2, e3⟩ := h
  subst e1
  refine ⟨⟨joinLines post cur, ?_⟩, line, ?_, e3⟩
  · rw [joinLines_cut, e2]
  · rw [e2, splitLines_joinLines pre line
      (fun l hl => hended l (List.mem_append_left _ hl))
      (hended line (List.mem_append_right _ (List.mem_cons_self _ _)))]
    exact List.getLast?_concat _

/-- Without the record, `getFormattedHelpTextLog` is `getFormattedHelpText`. -/
theorem getFormattedHelpTextLog_text (fuel : Nat) (opt : CmdLineOption)
    (startIndent helpTextIndent wrapLength : Int) :
    (getFormattedHelpTextLog fuel opt startIndent helpTextIndent wrapLength).bind
        (fun p => .done p.1) =
      getFormattedHelpText fuel opt startIndent helpTextIndent wrapLength := by
  unfold getFormattedHelpTextLog getFormattedHelpText
  cases preprocessHelpText fuel opt with
  | done words => simp only [Outcome.bind]; exact wrapLoopLog_text _ _ _ _ _ _ _ _
  | noFuel => rfl
  | outOfRange => rfl

/-- C6, as amended. For `startIndent >= 0`, `helpTextIndent >= 0` and
`wrapLength > startIndent + helpTextIndent` (an `int`), no line of a text returned by
`getFormattedHelpText` is longer than the larger of `wrapLength` and the length of the header
(indentation, labels, argument labels and one space), so no line is longer than `wrapLength`
when the header is not. And for an option whose labels, argument labels and values hold no
line break, every cut of a word longer than the usable width leaves a line of exactly
`wrapLength` characters in the text returned: the text up to the cut is followed by a line
break in the text returned, and its last line is `wrapLength` long. -/
theorem render_lines_fit (fuel : Nat) (opt : CmdLineOption)
    (startIndent helpTextIndent wrapLength : Int) (s : List Char)
    (h0 : 0 ≤ startIndent) (h1 : 0 ≤ helpTextIndent)
    (h2 : startIndent + helpTextIndent < wrapLength) (hw : wrapLength ≤ 2147483647)
    (h : getFormattedHelpText fuel opt startIndent helpTextIndent wrapLength = .done s) :
    (longestLine s : Int) ≤ max wrapLength (helpHeader opt startIndent).length ∧
    ('\n' ∉ opt.shortLabel → '\n' ∉ opt.longLabel → (∀ a ∈ opt.argLabels, '\n' ∉ a) →
      (∀ v ∈ opt.args, '\n' ∉ v) →
      ∃ splits : List (List Char),
        getFormattedHelpTextLog fuel opt startIndent helpTextIndent wrapLength =
          .done (s, splits) ∧
        ∀ t ∈ splits, (∃ rest, s = t ++ '\n' :: rest) ∧
          ∃ line, (splitLines t).getLast? = some line ∧ (line.length : Int) = wrapLength) := by
  constructor
  · exact line_bound_of_returned fuel opt startIndent helpTextIndent wrapLength s h0 h1 h2 hw h
  · intro hs hl ha hv
    have herase := getFormattedHelpTextLog_text fuel opt startIndent helpTextIndent wrapLength
    rw [h] at herase
    cases hlog : getFormattedHelpTextLog fuel opt startIndent helpTextIndent wrapLength with
    | noFuel => rw [hlog] at herase; simp [Outcome.bind] at herase
    | outOfRange => rw [hlog] at herase; simp [Outcome.bind] at herase
    | done p =>
      obtain ⟨s1, splits⟩ := p
      rw [hlog] at herase
      simp only [Outcome.bind, Outcome.done.injEq] at herase
      subst herase
      refine ⟨splits, rfl, ?_⟩
      unfold getFormattedHelpTextLog at hlog
      cases hp : preprocessHelpText fuel opt with
      | noFuel => rw [hp] at hlog; simp [Outcome.bind] at hlog
      | outOfRange => rw [hp] at hlog; simp [Outcome.bind] at hlog
      | done words =>
        rw [hp] at hlog
        simp only [Outcome.bind] at hlog
        have hwords := preprocessHelpText_no_break fuel opt words hv hp
        have hhead : '\n' ∉ padHeader (helpHeader opt startIndent) startIndent helpTextIndent :=
          padHeader_no_break _ _ _ (helpHeader_no_break opt startIndent hs hl ha)
        have hlen := padHeader_length (helpHeader opt startIndent) startIndent helpTextIndent
          (by omega) (by omega)
        have hstart : Tracked (startIndent + helpTextIndent).toNat wrapLength.toNat []
            (padHeader (helpHeader opt startIndent) startIndent helpTextIndent)
            ((padHeader (helpHeader opt startIndent) startIndent helpTextIndent).length : Int) := by
          refine ⟨by simp, hhead, rfl, by omega, by simp, fun hne => absurd rfl hne⟩
        obtain ⟨ended, cur, col, hjoin, htr, hcl⟩ :=
          wrapLoopLog_tracked startIndent helpTextIndent wrapLength h0 h1 h2 hw fuel words [] _ _
            [] s1 splits hwords hstart (by simp) hlog
        intro t ht
        obtain ⟨⟨rest, e1⟩, line, e2, e3⟩ := closedFull_line _ ended cur t htr.1 (hcl t ht)
        refine ⟨⟨rest, by rw [hjoin, e1]⟩, line, e2, ?_⟩
        omega

/-- Witness of C6: an option `-v` with the help text `%0` and the value `abcdefghijklmnop`,
rendered with `wrapLength = 10`; the word is cut once and the line of the cut,
`-v abcdefg`, is 10 long. -/
theorem render_lines_fit_witness :
    (longestLine "-v abcdefg\nhijklmnop ".toList : Int) ≤
      max 10 (helpHeader (CmdLineOption.new "-v".toList [] 1 "%0".toList
        ["abcdefghijklmnop".toList] []) 0).length ∧
    (∃ splits : List (List Char),
      getFormattedHelpTextLog 20 (CmdLineOption.new "-v".toList [] 1 "%0".toList
        ["abcdefghijklmnop".toList] []) 0 0 10 = .done ("-v abcdefg\nhijklmnop ".toList, splits) ∧
      ∀ t ∈ splits, (∃ rest, "-v abcdefg\nhijklmnop ".toList = t ++ '\n' :: rest) ∧
        ∃ line, (splitLines t).getLast? = some line ∧ (line.length : Int) = 10) ∧
    getFormattedHelpTextLog 20 (CmdLineOption.new "-v".toList [] 1 "%0".toList
      ["abcdefghijklmnop".toList] []) 0 0 10 =
        .done ("-v abcdefg\nhijklmnop ".toList, ["-v abcdefg".toList]) :=
  have h := render_lines_fit 20 (CmdLineOption.new "-v".toList [] 1 "%0".toList
    ["abcdefghijklmnop".toList] []) 0 0 10 "-v abcdefg\nhijklmnop ".toList
    (by decide) (by decide) (by decide) (by decide) (by decide)
  ⟨h.1, h.2 (by decide) (by decide) (by decide) (by decide), by decide⟩

/-- C6 as stated fails, twice. The option `-d` rendered with `wrapLength = 10` starts with
its header, a line of 21 characters. And an option whose value holds a line break, here `a`,
a line break and thirty `b`, has its word cut after `wrapLength - currentCol` characters of
which the line break is one: the line of the first cut is `bbbbb`, 5 long and not 10. -/
theorem render_overflows_and_short_split :
    (getFormattedHelpText 20 optOutDir 0 0 10 =
      .done ("-d, --out-dir <path> \nSpecifies \nthe \ndirectory \nto which \nthe \nfetched \nlibraries \nwill be \nwritten. ").toList ∧
    10 < longestLine ("-d, --out-dir <path> \nSpecifies \nthe \ndirectory \nto which \nthe \nfetched \nlibraries \nwill be \nwritten. ").toList) ∧
    (getFormattedHelpText 20 (CmdLineOption.new "-v".toList [] 1 "%0".toList
        ["a\nbbbbbbbbbbbbbbbbbbbbbbbbbbbbbb".toList] []) 0 0 10 =
      .done "-v a\nbbbbb\nbbbbbbbbbb\nbbbbbbbbbb\nbbbbb ".toList ∧
    getFormattedHelpTextLog 20 (CmdLineOption.new "-v".toList [] 1 "%0".toList
        ["a\nbbbbbbbbbbbbbbbbbbbbbbbbbbbbbb".toList] []) 0 0 10 =
      .done ("-v a\nbbbbb\nbbbbbbbbbb\nbbbbbbbbbb\nbbbbb ".toList,
        ["-v a\nbbbbb".toList, "-v a\nbbbbb\nbbbbbbbbbb".toList,
          "-v a\nbbbbb\nbbbbbbbbbb\nbbbbbbbbbb".toList]) ∧
    splitLines "-v a\nbbbbb\nbbbbbbbbbb\nbbbbbbbbbb\nbbbbb ".toList =
      ["-v a".toList, "bbbbb".toList, "bbbbbbbbbb".toList, "bbbbbbbbbb".toList, "bbbbb ".toList] ∧
    (splitLines "-v a\nbbbbb".toList).getLast? = some "bbbbb".toList ∧
    "bbbbb".toList.length = 5) := by
  decide

end Adept
